import Mathlib

/-!
# boost/fixed_string/detail/fixed_string.hpp

A shallow embedding of the storage layer of the fixed-capacity string
(`fixed_string_base_zero`, its `N == 0` specialisation, `fixed_string_base_null`),
of `lexicographical_compare`, `max_digits`, `raw_to_string` and `find_not_of`,
followed by the properties established about them.

Conventions of the embedding

* `std::size_t` is a 64-bit unsigned integer; the integer types of `smallest_width`
  have the widths of the LP64 data model.
* A value of an integral type is an `Int`; a conversion to an integral type reduces
  the value modulo `2 ^ bits` into the range of the type (`IntKind.conv`). Signed
  arithmetic that overflows is undefined in the source; its outcome is a parameter of
  the model (`IntKind.negate`), and what is proved there holds for every outcome named.
* An array `CharT data_[N + 1]` is a `List Int` of length `N + 1`.
* The template parameter `Traits` is a record of functions (`Traits`); the
  requirements the character-traits concept puts on `compare` and `find` are
  hypotheses (`Traits.LawfulCompare`, `Traits.LawfulFind`), and `char_traits` is the
  instance used for evaluation. `Traits::assign(r, a)` is the assignment `r = a`.
-/

namespace FixedString

/-! ## Integral types -/

/-- An integral type: its width in bits and whether it is signed. -/
structure IntKind where
  bits : Nat
  signed : Bool
deriving DecidableEq, Repr

namespace IntKind

/-- Value of `std::numeric_limits<T>::max()`. -/
def max (k : IntKind) : Int :=
  if k.signed then 2 ^ (k.bits - 1) - 1 else 2 ^ k.bits - 1

/-- Value of `std::numeric_limits<T>::min()`. -/
def min (k : IntKind) : Int :=
  if k.signed then -(2 ^ (k.bits - 1)) else 0

/-- Conversion of an integer value to the type `k`: the unique value of the type
congruent to `v` modulo `2 ^ bits`. -/
def conv (k : IntKind) (v : Int) : Int :=
  if k.signed then (v + 2 ^ (k.bits - 1)) % 2 ^ k.bits - 2 ^ (k.bits - 1)
  else v % 2 ^ k.bits

/-- The value `v` is a value of the type `k`. -/
def InRange (k : IntKind) (v : Int) : Prop := k.min ≤ v ∧ v ≤ k.max

instance (k : IntKind) (v : Int) : Decidable (k.InRange v) := by
  unfold InRange; exact inferInstance

end IntKind

/-- Conversion of an integer value to `std::size_t` (64-bit, unsigned). -/
def size_t_conv (v : Int) : Nat := (v % 2 ^ 64).toNat

/-- The C++ types `smallest_width` chooses among; `void` is the fall-through. -/
inductive CType where
  | unsigned_char
  | unsigned_short
  | unsigned_int
  | unsigned_long
  | unsigned_long_long
  | void
deriving DecidableEq, Repr

/-- Width in bits of the unsigned types (LP64); `void` has no values. -/
def CType.bits : CType → Nat
  | .unsigned_char => 8
  | .unsigned_short => 16
  | .unsigned_int => 32
  | .unsigned_long => 64
  | .unsigned_long_long => 64
  | .void => 0

/-- Value of `(std::numeric_limits<T>::max)()` for the unsigned types. -/
def CType.numeric_limits_max (t : CType) : Nat := 2 ^ t.bits - 1

/-- Alias `smallest_width<N>`: the chain of `std::conditional`, tried in source order. -/
def smallest_width (N : Nat) : CType :=
  if N ≤ CType.unsigned_char.numeric_limits_max then .unsigned_char
  else if N ≤ CType.unsigned_short.numeric_limits_max then .unsigned_short
  else if N ≤ CType.unsigned_int.numeric_limits_max then .unsigned_int
  else if N ≤ CType.unsigned_long.numeric_limits_max then .unsigned_long
  else if N ≤ CType.unsigned_long_long.numeric_limits_max then .unsigned_long_long
  else .void

/-! ## Storage variant with a size field: `fixed_string_base_zero<N, CharT, Traits>` -/

/-- Members of `fixed_string_base_zero<N, CharT, Traits>`: `size_` of type
`smallest_width<N>` and `CharT data_[N + 1]`. -/
structure fixed_string_base_zero where
  size_ : Nat
  data_ : List Int
deriving DecidableEq, Repr

namespace fixed_string_base_zero

/-- Member `size_impl()`: `return size_;`. -/
def size_impl (self : fixed_string_base_zero) : Nat := self.size_

/-- Member `set_size(n)`: `return size_ = n;`. The assignment converts `n` to
`smallest_width<N>`; the value returned is the value stored. -/
def set_size (N : Nat) (self : fixed_string_base_zero) (n : Nat) :
    fixed_string_base_zero × Nat :=
  let v := n % 2 ^ (smallest_width N).bits
  ({ self with size_ := v }, v)

/-- Member `term_impl()`: `Traits::assign(data_[size_], 0);`. -/
def term_impl (self : fixed_string_base_zero) : fixed_string_base_zero :=
  { self with data_ := self.data_.set self.size_ 0 }

end fixed_string_base_zero

/-! ## Storage variant for `N == 0`: `fixed_string_base_zero<0, CharT, Traits>` -/

/-- The specialisation has no members; the only object it touches is the
function-local `static CharT null{}` of `data_impl`, shared by all instances. -/
structure fixed_string_base_zero0 where
  null : Int
deriving DecidableEq, Repr

namespace fixed_string_base_zero0

/-- The static after its initialisation `null{}`. -/
def init : fixed_string_base_zero0 := ⟨0⟩

/-- Value of `*data_impl()`: the character the returned pointer `&null` points to. -/
def data_impl_deref (self : fixed_string_base_zero0) : Int := self.null

/-- Member `size_impl()`: `return 0;`. -/
def size_impl (_self : fixed_string_base_zero0) : Nat := 0

/-- Member `set_size(std::size_t)`: `return 0;`. -/
def set_size (self : fixed_string_base_zero0) (_n : Nat) : fixed_string_base_zero0 × Nat :=
  (self, 0)

/-- Member `term_impl()`: empty body. -/
def term_impl (self : fixed_string_base_zero0) : fixed_string_base_zero0 := self

end fixed_string_base_zero0

/-! ## Storage variant with the size in the last element: `fixed_string_base_null` -/

/-- Members of `fixed_string_base_null<N, CharT, Traits>`: `CharT data_[N + 1]`. -/
structure fixed_string_base_null where
  data_ : List Int
deriving DecidableEq, Repr

namespace fixed_string_base_null

/-- Member `size_impl()`: `return N - data_[N];`, computed in `std::size_t`. -/
def size_impl (N : Nat) (self : fixed_string_base_null) : Nat :=
  size_t_conv ((N : Int) - (size_t_conv (self.data_.getD N 0) : Int))

/-- Member `set_size(n)`: `return data_[N] = (N - n);`. The difference is computed in
`std::size_t`, converted to `CharT` by the assignment, and the stored character is
converted back to `std::size_t` by the return. -/
def set_size (N : Nat) (CharT : IntKind) (self : fixed_string_base_null) (n : Nat) :
    fixed_string_base_null × Nat :=
  let v := CharT.conv (size_t_conv ((N : Int) - (n : Int)))
  ({ data_ := self.data_.set N v }, size_t_conv v)

/-- Member `term_impl()`: `Traits::assign(data_[size_impl()], 0);`. -/
def term_impl (N : Nat) (self : fixed_string_base_null) : fixed_string_base_null :=
  { data_ := self.data_.set (size_impl N self) 0 }

end fixed_string_base_null

/-- A member function call on a storage object, for sequences of calls. -/
inductive Call where
  | set_size (n : Nat)
  | term_impl
deriving DecidableEq, Repr

/-- Run a sequence of calls on the `N == 0` variant. -/
def fixed_string_base_zero0.run :
    List Call → fixed_string_base_zero0 → fixed_string_base_zero0
  | [], st => st
  | .set_size n :: cs, st => run cs (st.set_size n).1
  | .term_impl :: cs, st => run cs st.term_impl

/-! ## The template parameter `Traits` -/

/-- The members of `Traits` used by the free functions. A pointer `CharT const* s` is
the list of the characters stored from `s` on; `find` returns the offset of the
character it points to, or `none` for a null pointer. -/
structure Traits (C : Type) where
  compare : List C → List C → Nat → Int
  find : List C → Nat → C → Option Nat

/-- The sequences `a` and `b` agree on an initial segment `p` and continue with elements
`x` and `y` related by `R`. -/
def FirstDiff {C : Type} (R : C → C → Prop) (a b : List C) : Prop :=
  ∃ p x y ra rb, a = p ++ x :: ra ∧ b = p ++ y :: rb ∧ R x y

/-- Lexicographic order on sequences: at the first position where they differ `a` has
the smaller element, or `a` is a proper initial segment of `b`. -/
def LexLess {C : Type} [LT C] (a b : List C) : Prop :=
  FirstDiff (· < ·) a b ∨ (∃ y r, b = a ++ y :: r)

/-- Requirement on `Traits::compare(s1, s2, n)`: it is the three-way lexicographic
comparison of the first `n` characters of `s1` and of `s2`. -/
structure Traits.LawfulCompare {C : Type} [LT C] (T : Traits C) : Prop where
  neg_iff : ∀ (s1 s2 : List C) (n : Nat), n ≤ s1.length → n ≤ s2.length →
    (T.compare s1 s2 n < 0 ↔ LexLess (s1.take n) (s2.take n))
  zero_iff : ∀ (s1 s2 : List C) (n : Nat), n ≤ s1.length → n ≤ s2.length →
    (T.compare s1 s2 n = 0 ↔ s1.take n = s2.take n)
  pos_iff : ∀ (s1 s2 : List C) (n : Nat), n ≤ s1.length → n ≤ s2.length →
    (0 < T.compare s1 s2 n ↔ LexLess (s2.take n) (s1.take n))

/-- Requirement on `Traits::find(str, n, c)`: it is null exactly when `c` is not among
the first `n` characters of `str`. -/
def Traits.LawfulFind {C : Type} (T : Traits C) : Prop :=
  ∀ (str : List C) (n : Nat) (c : C), n ≤ str.length →
    (T.find str n c = none ↔ c ∉ str.take n)

/-- Model of `std::char_traits<CharT>::compare`: first difference decides, `-1`, `0` or `1`. -/
def char_traits.compare {C : Type} [LinearOrder C] : List C → List C → Nat → Int
  | _, _, 0 => 0
  | x :: xs, y :: ys, n + 1 =>
    if x < y then -1 else if y < x then 1 else char_traits.compare xs ys n
  | _, _, _ + 1 => 0

/-- Model of `std::char_traits<CharT>::find`: offset of the first occurrence of `c` among the
first `n` characters. -/
def char_traits.find {C : Type} [DecidableEq C] : List C → Nat → C → Option Nat
  | _, 0, _ => none
  | [], _ + 1, _ => none
  | x :: xs, n + 1, c => if x = c then some 0 else (char_traits.find xs n c).map (· + 1)

/-- Model of `std::char_traits<CharT>`, the default for `Traits`. -/
def char_traits (C : Type) [LinearOrder C] : Traits C :=
  { compare := char_traits.compare, find := char_traits.find }

/-! ## `lexicographical_compare` -/

/-- Function `lexicographical_compare<CharT, Traits>(s1, n1, s2, n2)`. -/
def lexicographical_compare {C : Type} (T : Traits C)
    (s1 : List C) (n1 : Nat) (s2 : List C) (n2 : Nat) : Int :=
  if n1 < n2 then
    (if T.compare s1 s2 n1 ≤ 0 then -1 else 1)
  else if n1 > n2 then
    (if T.compare s1 s2 n2 ≥ 0 then 1 else -1)
  else T.compare s1 s2 n1

/-! ## `max_digits` and `raw_to_string` -/

/-- Numerator of the binary64 value of the literal `2.41`, which is
`678354693872681 / 2 ^ 48`. -/
def double_2_41_num : Nat := 678354693872681

/-- Function `max_digits(bytes)`: `static_cast<std::size_t>(bytes * 2.41) + 1 + 1`. The
product is taken exactly, which is what binary64 arithmetic gives whenever the product is
representable, in particular for every power of two `bytes` up to `2 ^ 53` (every
`sizeof(Integer)`); the cast truncates. -/
def max_digits (bytes : Nat) : Nat :=
  bytes * double_2_41_num / 2 ^ 48 + 1 + 1

/-- Size `sizeof(Integer)` in bytes. -/
def IntKind.sizeof (k : IntKind) : Nat := k.bits / 8

/-- Character `"0123456789"[i]`. -/
def digit_char (i : Int) : Char :=
  ['0', '1', '2', '3', '4', '5', '6', '7', '8', '9'].getD i.toNat '\x00'

/-- The loop `for(; x > 0; x /= 10) Traits::assign(*--buf, "0123456789"[x % 10]);`.
The argument `buf` is the text between the pointer `buf` and the end of the buffer,
so `*--buf = c` puts `c` in front of it. Division and remainder truncate, as in C++;
the quotient of a positive value of a type is a value of that type. -/
def raw_to_string.loop (x : Int) (buf : List Char) : List Char :=
  if 0 < x then raw_to_string.loop (x.tdiv 10) (digit_char (x.tmod 10) :: buf) else buf
termination_by x.toNat
decreasing_by
  rw [Int.tdiv_eq_ediv (by omega) (by omega)]
  omega

/-- Width of `int` in bits; operands of a narrower type are promoted to `int`. -/
def int_bits : Nat := 32

/-- The integer `v` can be read from an object of `k.bits` bits, as a signed or as an
unsigned value. -/
def IntKind.IsObjectValue (k : IntKind) (v : Int) : Prop :=
  -(2 ^ (k.bits - 1)) ≤ v ∧ v ≤ 2 ^ k.bits - 1

instance (k : IntKind) (v : Int) : Decidable (k.IsObjectValue v) := by
  unfold IntKind.IsObjectValue; exact inferInstance

/-- The statement `x = -x` on an object of the signed type `Integer`. For a type narrower
than `int` the operand is promoted, negated in `int` without overflow and converted back
to the type. For `int` and wider types the negation is done in the type itself; when
`-x` is not a value of the type (`x` is the most negative value) this is signed overflow,
which the language leaves undefined, and `neg_overflow` stands for what the loop then
finds in `x`: the most negative value again when the negation wraps around,
`2 ^ (bits - 1)` when the compiled loop goes on with the magnitude as an unsigned
number. -/
def IntKind.negate (Integer : IntKind) (neg_overflow : Int) (x : Int) : Int :=
  if Integer.bits < int_bits then Integer.conv (-x)
  else if -x ≤ Integer.max then -x
  else neg_overflow

/-- Function `raw_to_string(buf, x, std::true_type)`, the overload for signed `Integer`;
the result is the text between the returned pointer and the end of the buffer. The
parameter `neg_overflow` is the outcome of `x = -x` where it overflows, see
`IntKind.negate`. -/
def raw_to_string_signed (Integer : IntKind) (neg_overflow : Int) (x : Int) : List Char :=
  if x = 0 then ['0']
  else if x < 0 then '-' :: raw_to_string.loop (Integer.negate neg_overflow x) []
  else raw_to_string.loop x []

/-- Function `raw_to_string(buf, x, std::false_type)`, the overload for unsigned
`Integer`. -/
def raw_to_string_unsigned (x : Int) : List Char :=
  if x = 0 then ['0'] else raw_to_string.loop x []

/-- Function `raw_to_string(last, size, i)`: the assertion
`size >= max_digits(sizeof(Integer))` (`none` when it fails), then the dispatch on
`std::is_signed<Integer>`. -/
def raw_to_string (Integer : IntKind) (neg_overflow : Int) (size : Nat) (i : Int) :
    Option (List Char) :=
  if max_digits Integer.sizeof ≤ size then
    some (if Integer.signed then raw_to_string_signed Integer neg_overflow i
      else raw_to_string_unsigned i)
  else none

/-- Value of a text of decimal digits read most significant digit first. -/
def parse_decimal (cs : List Char) : Nat :=
  cs.foldl (fun acc c => 10 * acc + (c.toNat - '0'.toNat)) 0

/-- Value of a decimal text with an optional leading minus sign. -/
def parse_signed_decimal : List Char → Int
  | '-' :: cs => -(parse_decimal cs : Int)
  | cs => (parse_decimal cs : Int)

/-! ## `find_not_of` -/

/-- Function `find_not_of<Traits>(first, last, str, n)`. The range `[first, last)` is the list of
its elements; an iterator into it is its distance from `first`, so `last` is the length
of the list. -/
def find_not_of {C : Type} (T : Traits C) : List C → List C → Nat → Nat
  | [], _, _ => 0
  | c :: rest, str, n =>
    if (T.find str n c).isNone then 0 else find_not_of T rest str n + 1

/-! ## Construction, call sequences and the selection of the storage class -/

/-- The array `data_` after its member initialiser: `CharT data_[N + 1]{}` is all zero;
with `BOOST_FIXED_STRING_ALLOW_UNINIT_MEM` the initialiser is absent and the array keeps
the content `raw` the storage happens to have. -/
def data_init (allow_uninit_mem : Bool) (N : Nat) (raw : List Int) : List Int :=
  if allow_uninit_mem then raw else List.replicate (N + 1) 0

/-- Constructor `fixed_string_base_zero()`: `size_{0}` and the initialiser of `data_`. -/
def fixed_string_base_zero.ctor (allow_uninit_mem : Bool) (N : Nat) (raw : List Int) :
    fixed_string_base_zero :=
  { size_ := 0, data_ := data_init allow_uninit_mem N raw }

/-- Constructor `fixed_string_base_zero(std::size_t n)`: `size_(n)`, which converts `n`
to `smallest_width<N>`. -/
def fixed_string_base_zero.ctor_n (allow_uninit_mem : Bool) (N : Nat) (raw : List Int)
    (n : Nat) : fixed_string_base_zero :=
  { size_ := n % 2 ^ (smallest_width N).bits, data_ := data_init allow_uninit_mem N raw }

/-- Constructor `fixed_string_base_null(std::size_t n)`: body `set_size(n);`, run on the
initialised array. -/
def fixed_string_base_null.ctor_n (allow_uninit_mem : Bool) (N : Nat) (CharT : IntKind)
    (raw : List Int) (n : Nat) : fixed_string_base_null :=
  (fixed_string_base_null.set_size N CharT ⟨data_init allow_uninit_mem N raw⟩ n).1

/-- Constructor `fixed_string_base_null()`: body `set_size(0);`. -/
def fixed_string_base_null.ctor (allow_uninit_mem : Bool) (N : Nat) (CharT : IntKind)
    (raw : List Int) : fixed_string_base_null :=
  (fixed_string_base_null.set_size N CharT ⟨data_init allow_uninit_mem N raw⟩ 0).1

/-- Run a sequence of calls on a `fixed_string_base_null<N, CharT, Traits>`. -/
def fixed_string_base_null.run (N : Nat) (CharT : IntKind) :
    List Call → fixed_string_base_null → fixed_string_base_null
  | [], st => st
  | .set_size n :: cs, st => run N CharT cs (st.set_size N CharT n).1
  | .term_impl :: cs, st => run N CharT cs (st.term_impl N)

/-- The call respects the contract of the storage layer: `set_size(n)` has `n <= N`. -/
def Call.Valid (N : Nat) : Call → Prop
  | .set_size n => n ≤ N
  | .term_impl => True

instance (N : Nat) (c : Call) : Decidable (Call.Valid N c) := by
  cases c <;> unfold Call.Valid <;> exact inferInstance

/-- The three class definitions `optimization_base` can name: the primary template
`fixed_string_base_zero<N, CharT, Traits>` (a size field and the buffer), its partial
specialisation for `N == 0` (no members) and `fixed_string_base_null<N, CharT, Traits>`
(the buffer only, size in the last element). -/
inductive StorageClass where
  | fixed_string_base_zero_primary
  | fixed_string_base_zero_0
  | fixed_string_base_null
deriving DecidableEq, Repr

/-- The class the name `fixed_string_base_zero<N, CharT, Traits>` denotes: the partial
specialisation `fixed_string_base_zero<0, CharT, Traits>` matches exactly `N == 0`. -/
def fixed_string_base_zero_class (N : Nat) : StorageClass :=
  if N = 0 then .fixed_string_base_zero_0 else .fixed_string_base_zero_primary

/-- Alias `optimization_base<N, CharT, Traits>`; `no_null_optimization` tells whether
`BOOST_FIXED_STRING_NO_NULL_OPTIMIZATION` is defined. -/
def optimization_base (no_null_optimization : Bool) (N : Nat) (CharT : IntKind) :
    StorageClass :=
  if no_null_optimization then fixed_string_base_zero_class N
  else if (N : Int) ≤ CharT.max ∧ N ≠ 0 then .fixed_string_base_null
  else fixed_string_base_zero_class N

/-- Invariant of `fixed_string_base_null<N, CharT, Traits>`: the array has `N + 1`
elements, `size_impl()` is at most `N`, and the last element holds `N - size_impl()`. -/
def fixed_string_base_null.Inv (N : Nat) (st : fixed_string_base_null) : Prop :=
  st.data_.length = N + 1 ∧ st.size_impl N ≤ N ∧
    st.data_[N]? = some ((N : Int) - (st.size_impl N : Int))

instance (N : Nat) (st : fixed_string_base_null) :
    Decidable (fixed_string_base_null.Inv N st) := by
  unfold fixed_string_base_null.Inv; exact inferInstance

/-! ## Properties of the storage variants -/

theorem size_t_conv_natCast (n : Nat) (h : n < 2 ^ 64) : size_t_conv (n : Int) = n := by
  unfold size_t_conv
  omega

theorem IntKind.bits_pos_of_lt_max (k : IntKind) (v : Int) (h0 : 0 < v) (h1 : v ≤ k.max) :
    0 < k.bits := by
  rcases Nat.eq_zero_or_pos k.bits with hb | hb
  · exfalso
    unfold IntKind.max at h1
    rw [hb] at h1
    cases k.signed <;> simp at h1 <;> omega
  · exact hb

theorem IntKind.conv_eq_self (k : IntKind) (v : Int) (hb : 0 < k.bits) (h0 : 0 ≤ v)
    (h1 : v ≤ k.max) : k.conv v = v := by
  unfold IntKind.conv
  unfold IntKind.max at h1
  cases hsg : k.signed
  · simp only [hsg, Bool.false_eq_true, if_false] at h1 ⊢
    exact Int.emod_eq_of_lt h0 (by omega)
  · simp only [hsg, if_true] at h1 ⊢
    have hp : (2 : Int) ^ k.bits = 2 * 2 ^ (k.bits - 1) := by
      obtain ⟨m, hm⟩ : ∃ m, k.bits = m + 1 := ⟨k.bits - 1, by omega⟩
      rw [hm, pow_succ]
      simp
      ring
    have hq : (0 : Int) < 2 ^ (k.bits - 1) := by positivity
    rw [Int.emod_eq_of_lt (by omega) (by omega)]
    omega

/-- C1. Encoded variant (`fixed_string_base_null`, `0 < N <= max of CharT`): from every
buffer state and for every `s <= N`, `set_size(s)` followed by `term_impl()` gives
`size_impl() == s` and `data_[size_impl()] == 0` (the index is inside the array);
`N - s` is stored in slot `N` unchanged by the conversion to `CharT`, and for `s == N`
the terminator is written to slot `N` itself. -/
theorem encoded_set_size_then_term (N : Nat) (CharT : IntKind) (st : fixed_string_base_null)
    (s : Nat) (hN : 0 < N) (hmax : (N : Int) ≤ CharT.max) (hsz : N < 2 ^ 64)
    (hlen : st.data_.length = N + 1) (hs : s ≤ N) :
    CharT.conv ((N : Int) - (s : Int)) = (N : Int) - (s : Int) ∧
    (fixed_string_base_null.set_size N CharT st s).1.data_[N]? = some ((N : Int) - (s : Int)) ∧
    (fixed_string_base_null.term_impl N
      (fixed_string_base_null.set_size N CharT st s).1).size_impl N = s ∧
    (fixed_string_base_null.term_impl N (fixed_string_base_null.set_size N CharT st s).1).data_[
      (fixed_string_base_null.term_impl N
        (fixed_string_base_null.set_size N CharT st s).1).size_impl N]? = some 0 ∧
    (fixed_string_base_null.term_impl N (fixed_string_base_null.set_size N CharT st s).1).data_[s]?
      = some 0 ∧
    (s = N → (fixed_string_base_null.set_size N CharT st s).1.size_impl N = N) := by
  have hb : 0 < CharT.bits := CharT.bits_pos_of_lt_max N (by omega) hmax
  have hfit : CharT.conv ((N : Int) - (s : Int)) = (N : Int) - (s : Int) :=
    CharT.conv_eq_self _ hb (by omega) (by omega)
  have hsub : ((N : Int) - (s : Int)) = ((N - s : Nat) : Int) := by omega
  have hstore : CharT.conv (size_t_conv ((N : Int) - (s : Int))) = ((N - s : Nat) : Int) := by
    rw [hsub, size_t_conv_natCast _ (by omega), ← hsub, hfit]
  have hsz1 : ∀ l : List Int, l.length = N + 1 →
      fixed_string_base_null.size_impl N ⟨l.set N ((N - s : Nat) : Int)⟩ = s := by
    intro l hl
    unfold fixed_string_base_null.size_impl
    simp only
    rw [List.getD_eq_getElem?_getD, List.getElem?_set_self (by omega)]
    simp only [Option.getD_some]
    rw [size_t_conv_natCast _ (by omega)]
    have : ((N : Int) - ((N - s : Nat) : Int)) = ((s : Nat) : Int) := by omega
    rw [this, size_t_conv_natCast _ (by omega)]
  have hst1 : (fixed_string_base_null.set_size N CharT st s).1
      = ⟨st.data_.set N ((N - s : Nat) : Int)⟩ := by
    simp only [fixed_string_base_null.set_size, hstore]
  have hsize1 : (fixed_string_base_null.set_size N CharT st s).1.size_impl N = s := by
    rw [hst1]; exact hsz1 _ hlen
  have hst2 : fixed_string_base_null.term_impl N (fixed_string_base_null.set_size N CharT st s).1
      = ⟨(st.data_.set N ((N - s : Nat) : Int)).set s 0⟩ := by
    unfold fixed_string_base_null.term_impl
    rw [hsize1, hst1]
  have hsize2 : (fixed_string_base_null.term_impl N
      (fixed_string_base_null.set_size N CharT st s).1).size_impl N = s := by
    rw [hst2]
    rcases Nat.lt_or_ge s N with hlt | hge
    · rw [List.set_comm _ _ _ (by omega : N ≠ s)]
      exact hsz1 _ (by simp [hlen])
    · have hsN : s = N := by omega
      subst hsN
      rw [List.set_set]
      have h0 : (0 : Int) = ((s - s : Nat) : Int) := by simp
      rw [h0]
      exact hsz1 _ hlen
  have hterm : (fixed_string_base_null.term_impl N
      (fixed_string_base_null.set_size N CharT st s).1).data_[s]? = some 0 := by
    rw [hst2]
    simp only
    rw [List.getElem?_set_self (by simp [hlen]; omega)]
  refine ⟨hfit, ?_, hsize2, ?_, hterm, ?_⟩
  · rw [hst1]
    simp only
    rw [List.getElem?_set_self (by omega), hsub]
  · rw [hsize2]; exact hterm
  · intro h; rw [hsize1, h]

/-- C1 at a concrete input: `N = 5`, `CharT = char` (8 bits, signed), a buffer holding
text and a stale last slot, `s = 5` (terminator slot and size slot coincide). -/
theorem encoded_set_size_then_term_witness :
    (fixed_string_base_null.term_impl 5
      (fixed_string_base_null.set_size 5 ⟨8, true⟩
        ⟨[104, 101, 108, 108, 111, 77]⟩ 5).1).size_impl 5 = 5 ∧
    (fixed_string_base_null.term_impl 5
      (fixed_string_base_null.set_size 5 ⟨8, true⟩
        ⟨[104, 101, 108, 108, 111, 77]⟩ 5).1).data_[5]? = some 0 :=
  have h := encoded_set_size_then_term 5 ⟨8, true⟩ ⟨[104, 101, 108, 108, 111, 77]⟩ 5
    (by decide) (by decide) (by decide) (by decide) (by decide)
  ⟨h.2.2.1, h.2.2.2.2.1⟩

theorem smallest_width_holds (N : Nat) (h : N < 2 ^ 64) :
    N ≤ (smallest_width N).numeric_limits_max := by
  unfold smallest_width
  split_ifs with h1 h2 h3 h4 h5
  · exact h1
  · exact h2
  · exact h3
  · exact h4
  · exact h5
  · exfalso
    simp only [CType.numeric_limits_max, CType.bits] at h4
    omega

/-- C2. Sized variant (`fixed_string_base_zero`, `N > 0`): from every state and for every
`s <= N`, `set_size(s)` followed by `term_impl()` gives `size_impl() == s` and
`data_[s] == 0` (inside the array); the conversion of `s` to `smallest_width<N>` loses
nothing because `s <= N <= max of smallest_width<N>`. -/
theorem sized_set_size_then_term (N : Nat) (st : fixed_string_base_zero) (s : Nat)
    (_hN : 0 < N) (hsz : N < 2 ^ 64) (hlen : st.data_.length = N + 1) (hs : s ≤ N) :
    N ≤ (smallest_width N).numeric_limits_max ∧
    s % 2 ^ (smallest_width N).bits = s ∧
    (fixed_string_base_zero.set_size N st s).1.term_impl.size_impl = s ∧
    (fixed_string_base_zero.set_size N st s).1.term_impl.data_[
      (fixed_string_base_zero.set_size N st s).1.term_impl.size_impl]? = some 0 ∧
    (fixed_string_base_zero.set_size N st s).1.term_impl.data_[s]? = some 0 := by
  have hw := smallest_width_holds N hsz
  have hpos : 0 < 2 ^ (smallest_width N).bits := by positivity
  have hmod : s % 2 ^ (smallest_width N).bits = s := by
    apply Nat.mod_eq_of_lt
    unfold CType.numeric_limits_max at hw
    omega
  have hst : (fixed_string_base_zero.set_size N st s).1.term_impl
      = ⟨s, st.data_.set s 0⟩ := by
    simp only [fixed_string_base_zero.set_size, fixed_string_base_zero.term_impl, hmod]
  have hterm : (fixed_string_base_zero.set_size N st s).1.term_impl.data_[s]? = some 0 := by
    rw [hst]
    simp only
    rw [List.getElem?_set_self (by omega)]
  have hsize : (fixed_string_base_zero.set_size N st s).1.term_impl.size_impl = s := by
    rw [hst]; rfl
  refine ⟨hw, hmod, hsize, ?_, hterm⟩
  rw [hsize]; exact hterm

/-- C2 at a concrete input: `N = 300` (so `size_` is an `unsigned short`), `s = 300`,
from a state whose buffer holds the value 7 everywhere. -/
theorem sized_set_size_then_term_witness :
    (fixed_string_base_zero.set_size 300 ⟨9, List.replicate 301 7⟩ 300).1.term_impl.size_impl
      = 300 ∧
    (fixed_string_base_zero.set_size 300 ⟨9, List.replicate 301 7⟩ 300).1.term_impl.data_[300]?
      = some 0 :=
  have h := sized_set_size_then_term 300 ⟨9, List.replicate 301 7⟩ 300
    (by decide) (by decide) (List.length_replicate 301 7) (by decide)
  ⟨h.2.2.1, h.2.2.2.2⟩

theorem fixed_string_base_zero0.run_eq (cs : List Call) (st : fixed_string_base_zero0) :
    fixed_string_base_zero0.run cs st = st := by
  induction cs generalizing st with
  | nil => rfl
  | cons c cs ih =>
    cases c with
    | set_size n =>
      simpa [fixed_string_base_zero0.run, fixed_string_base_zero0.set_size] using ih st
    | term_impl =>
      simpa [fixed_string_base_zero0.run, fixed_string_base_zero0.term_impl] using ih st

/-- C3. Empty variant (`fixed_string_base_zero<0, CharT, Traits>`): `set_size(n)` returns 0
for every `n`; no sequence of `set_size` and `term_impl` calls changes anything, so after
any such sequence `size_impl()` is 0 and the character `data_impl()` points to is 0. -/
theorem empty_variant_inert (n : Nat) (cs : List Call) (st : fixed_string_base_zero0) :
    (st.set_size n).2 = 0 ∧
    (st.set_size n).1 = st ∧
    st.term_impl = st ∧
    fixed_string_base_zero0.run cs st = st ∧
    (fixed_string_base_zero0.run cs fixed_string_base_zero0.init).size_impl = 0 ∧
    (fixed_string_base_zero0.run cs fixed_string_base_zero0.init).data_impl_deref = 0 := by
  refine ⟨rfl, rfl, rfl, fixed_string_base_zero0.run_eq cs st, rfl, ?_⟩
  rw [fixed_string_base_zero0.run_eq]
  rfl


/-! ## Properties of `lexicographical_compare` -/

section Compare

variable {C : Type}

theorem FirstDiff.take_right {R : C → C → Prop} {a b : List C} (h : FirstDiff R a b)
    (n : Nat) (hn : a.length ≤ n) : FirstDiff R a (b.take n) := by
  obtain ⟨p, x, y, ra, rb, ha, hb, hxy⟩ := h
  subst ha hb
  obtain ⟨m, hm⟩ : ∃ m, n = p.length + (m + 1) := by
    refine ⟨n - p.length - 1, ?_⟩
    simp only [List.length_append, List.length_cons] at hn
    omega
  refine ⟨p, x, y, ra, rb.take m, rfl, ?_, hxy⟩
  rw [hm, List.take_append, List.take_succ_cons]

theorem FirstDiff.take_left {R : C → C → Prop} {a b : List C} (h : FirstDiff R a b)
    (n : Nat) (hn : b.length ≤ n) : FirstDiff R (a.take n) b := by
  obtain ⟨p, x, y, ra, rb, ha, hb, hxy⟩ := h
  subst ha hb
  obtain ⟨m, hm⟩ : ∃ m, n = p.length + (m + 1) := by
    refine ⟨n - p.length - 1, ?_⟩
    simp only [List.length_append, List.length_cons] at hn
    omega
  refine ⟨p, x, y, ra.take m, rb, ?_, rfl, hxy⟩
  rw [hm, List.take_append, List.take_succ_cons]

theorem FirstDiff.of_take_right {R : C → C → Prop} {a b : List C} {n : Nat}
    (h : FirstDiff R a (b.take n)) : FirstDiff R a b := by
  obtain ⟨p, x, y, ra, rb, ha, hb, hxy⟩ := h
  refine ⟨p, x, y, ra, rb ++ b.drop n, ha, ?_, hxy⟩
  have := List.take_append_drop n b
  rw [hb] at this
  exact this.symm.trans (by simp)

theorem FirstDiff.of_take_left {R : C → C → Prop} {a b : List C} {n : Nat}
    (h : FirstDiff R (a.take n) b) : FirstDiff R a b := by
  obtain ⟨p, x, y, ra, rb, ha, hb, hxy⟩ := h
  refine ⟨p, x, y, ra ++ a.drop n, rb, ?_, hb, hxy⟩
  have := List.take_append_drop n a
  rw [ha] at this
  exact this.symm.trans (by simp)

theorem not_extends_of_length_le {a b : List C} (h : b.length ≤ a.length) :
    ¬ ∃ y r, b = a ++ y :: r := by
  rintro ⟨y, r, hb⟩
  have := congrArg List.length hb
  simp only [List.length_append, List.length_cons] at this
  omega

/-- Against a longer sequence, `a` is less exactly when it is less than or equal to the
initial segment of its own length. -/
theorem lexLess_shorter_iff [LT C] {a b : List C} (h : a.length < b.length) :
    LexLess a b ↔ LexLess a (b.take a.length) ∨ a = b.take a.length := by
  constructor
  · rintro (hd | ⟨y, r, hb⟩)
    · exact Or.inl (Or.inl (hd.take_right _ (Nat.le_refl _)))
    · right
      rw [hb, List.take_left]
  · rintro ((hd | hp) | heq)
    · exact Or.inl hd.of_take_right
    · exact absurd hp (not_extends_of_length_le (by simp))
    · right
      have hsplit := List.take_append_drop a.length b
      rw [← heq] at hsplit
      cases hdrop : b.drop a.length with
      | nil =>
        have := congrArg List.length hdrop
        simp only [List.length_drop, List.length_nil] at this
        omega
      | cons y r =>
        rw [hdrop] at hsplit
        exact ⟨y, r, hsplit.symm⟩

/-- A longer sequence is less than `a` exactly when its initial segment of the length of
`a` is. -/
theorem lexLess_longer_iff [LT C] {a b : List C} (h : a.length < b.length) :
    LexLess b a ↔ LexLess (b.take a.length) a := by
  constructor
  · rintro (hd | hp)
    · exact Or.inl (hd.take_left _ (Nat.le_refl _))
    · exact absurd hp (not_extends_of_length_le (Nat.le_of_lt h))
  · rintro (hd | hp)
    · exact Or.inl hd.of_take_left
    · exact absurd hp (not_extends_of_length_le (by simp; omega))

theorem lexicographical_compare_lt {T : Traits C} (s1 s2 : List C) {n1 n2 : Nat}
    (h : n1 < n2) :
    lexicographical_compare T s1 n1 s2 n2 = if T.compare s1 s2 n1 ≤ 0 then -1 else 1 := by
  unfold lexicographical_compare
  rw [if_pos h]

theorem lexicographical_compare_gt {T : Traits C} (s1 s2 : List C) {n1 n2 : Nat}
    (h : n2 < n1) :
    lexicographical_compare T s1 n1 s2 n2 = if T.compare s1 s2 n2 ≥ 0 then 1 else -1 := by
  unfold lexicographical_compare
  rw [if_neg (by omega), if_pos h]

theorem lexicographical_compare_eq {T : Traits C} (s1 s2 : List C) (n : Nat) :
    lexicographical_compare T s1 n s2 n = T.compare s1 s2 n := by
  unfold lexicographical_compare
  rw [if_neg (by omega), if_neg (by omega)]

/-- C4. `lexicographical_compare(s1, n1, s2, n2)` is the lexicographic order on the
sequences `a` (the first `n1` characters of `s1`) and `b` (the first `n2` of `s2`): the
result is negative iff `a` is less than `b`, zero iff `a = b`, positive iff `b` is less
than `a`, provided `Traits::compare` is the lexicographic three-way comparison of the
first `n` characters. -/
theorem lexicographical_compare_is_lex [LT C] (T : Traits C) (hT : T.LawfulCompare)
    (s1 s2 : List C) (n1 n2 : Nat) (h1 : n1 ≤ s1.length) (h2 : n2 ≤ s2.length) :
    (lexicographical_compare T s1 n1 s2 n2 < 0 ↔ LexLess (s1.take n1) (s2.take n2)) ∧
    (lexicographical_compare T s1 n1 s2 n2 = 0 ↔ s1.take n1 = s2.take n2) ∧
    (0 < lexicographical_compare T s1 n1 s2 n2 ↔ LexLess (s2.take n2) (s1.take n1)) := by
  have hl1 : (s1.take n1).length = n1 := by simp [h1]
  have hl2 : (s2.take n2).length = n2 := by simp [h2]
  rcases Nat.lt_trichotomy n1 n2 with hlt | heq | hgt
  · have hlen : (s1.take n1).length < (s2.take n2).length := by omega
    have htake : (s2.take n2).take (s1.take n1).length = s2.take n1 := by
      rw [hl1, List.take_take, Nat.min_eq_left (Nat.le_of_lt hlt)]
    have hneg := hT.neg_iff s1 s2 n1 h1 (by omega)
    have hzero := hT.zero_iff s1 s2 n1 h1 (by omega)
    have hpos := hT.pos_iff s1 s2 n1 h1 (by omega)
    rw [lexicographical_compare_lt s1 s2 hlt, lexLess_shorter_iff hlen,
      lexLess_longer_iff hlen, htake, ← hneg, ← hzero, ← hpos]
    have hne : s1.take n1 ≠ s2.take n2 := fun he => by
      have := congrArg List.length he
      omega
    by_cases hc : T.compare s1 s2 n1 ≤ 0
    · rw [if_pos hc]
      refine ⟨⟨fun _ => by omega, fun _ => by decide⟩,
        ⟨fun h => by simp at h, fun h => absurd h hne⟩,
        ⟨fun h => by simp at h, fun h => by omega⟩⟩
    · rw [if_neg hc]
      refine ⟨⟨fun h => by simp at h, fun h => by omega⟩,
        ⟨fun h => by simp at h, fun h => absurd h hne⟩,
        ⟨fun _ => by omega, fun _ => by decide⟩⟩
  · subst heq
    rw [lexicographical_compare_eq]
    exact ⟨hT.neg_iff s1 s2 n1 h1 h2, hT.zero_iff s1 s2 n1 h1 h2, hT.pos_iff s1 s2 n1 h1 h2⟩
  · have hlen : (s2.take n2).length < (s1.take n1).length := by omega
    have htake : (s1.take n1).take (s2.take n2).length = s1.take n2 := by
      rw [hl2, List.take_take, Nat.min_eq_left (Nat.le_of_lt hgt)]
    have hneg := hT.neg_iff s1 s2 n2 (by omega) h2
    have hzero := hT.zero_iff s1 s2 n2 (by omega) h2
    have hpos := hT.pos_iff s1 s2 n2 (by omega) h2
    rw [lexicographical_compare_gt s1 s2 hgt, lexLess_shorter_iff hlen,
      lexLess_longer_iff hlen, htake, ← hneg, ← hpos, eq_comm (a := s2.take n2), ← hzero]
    have hne : s1.take n1 ≠ s2.take n2 := fun he => by
      have := congrArg List.length he
      omega
    by_cases hc : T.compare s1 s2 n2 ≥ 0
    · rw [if_pos hc]
      refine ⟨⟨fun h => by simp at h, fun h => by omega⟩,
        ⟨fun h => by simp at h, fun h => absurd h hne⟩,
        ⟨fun _ => by omega, fun _ => by decide⟩⟩
    · rw [if_neg hc]
      refine ⟨⟨fun _ => by omega, fun _ => by decide⟩,
        ⟨fun h => by simp at h, fun h => absurd h hne⟩,
        ⟨fun h => by simp at h, fun h => by omega⟩⟩


theorem not_lexLess_nil [LT C] (a : List C) : ¬ LexLess a [] := by
  rintro (⟨p, x, y, ra, rb, -, hb, -⟩ | ⟨y, r, hb⟩)
  · simp at hb
  · simp at hb

theorem lexLess_cons_cons [LT C] (x y : C) (a b : List C) :
    LexLess (x :: a) (y :: b) ↔ x < y ∨ (x = y ∧ LexLess a b) := by
  constructor
  · rintro (⟨p, u, v, ra, rb, ha, hb, huv⟩ | ⟨z, r, hb⟩)
    · cases p with
      | nil =>
        simp only [List.nil_append, List.cons.injEq] at ha hb
        left
        rw [ha.1, hb.1]
        exact huv
      | cons w p =>
        simp only [List.cons_append, List.cons.injEq] at ha hb
        right
        exact ⟨ha.1.trans hb.1.symm, Or.inl ⟨p, u, v, ra, rb, ha.2, hb.2, huv⟩⟩
    · simp only [List.cons_append, List.cons.injEq] at hb
      right
      exact ⟨hb.1.symm, Or.inr ⟨z, r, hb.2⟩⟩
  · rintro (h | ⟨rfl, hd | ⟨z, r, hb⟩⟩)
    · exact Or.inl ⟨[], x, y, a, b, rfl, rfl, h⟩
    · obtain ⟨p, u, v, ra, rb, ha, hb, huv⟩ := hd
      exact Or.inl ⟨x :: p, u, v, ra, rb, by simp [ha], by simp [hb], huv⟩
    · exact Or.inr ⟨z, r, by simp [hb]⟩

theorem char_traits.compare_spec [LinearOrder C] (n : Nat) :
    ∀ s1 s2 : List C, n ≤ s1.length → n ≤ s2.length →
      (char_traits.compare s1 s2 n < 0 ↔ LexLess (s1.take n) (s2.take n)) ∧
      (char_traits.compare s1 s2 n = 0 ↔ s1.take n = s2.take n) ∧
      (0 < char_traits.compare s1 s2 n ↔ LexLess (s2.take n) (s1.take n)) := by
  induction n with
  | zero =>
    intro s1 s2 _ _
    simp [char_traits.compare, not_lexLess_nil]
  | succ n ih =>
    intro s1 s2 h1 h2
    cases s1 with
    | nil => simp at h1
    | cons x xs =>
      cases s2 with
      | nil => simp at h2
      | cons y ys =>
        simp only [List.length_cons, Nat.add_le_add_iff_right] at h1 h2
        obtain ⟨ihn, ihz, ihp⟩ := ih xs ys h1 h2
        simp only [char_traits.compare, List.take_succ_cons, lexLess_cons_cons, List.cons.injEq]
        rcases lt_trichotomy x y with hlt | heq | hgt
        · rw [if_pos hlt]
          have hne : x ≠ y := ne_of_lt hlt
          have hnot : ¬ y < x := not_lt_of_lt hlt
          refine ⟨⟨fun _ => Or.inl hlt, fun _ => by decide⟩,
            ⟨fun h => by simp at h, fun h => absurd h.1 hne⟩,
            ⟨fun h => by simp at h, ?_⟩⟩
          rintro (h | ⟨h, -⟩)
          · exact absurd h hnot
          · exact absurd h.symm hne
        · subst heq
          simp only [lt_irrefl, if_false, false_or, true_and]
          exact ⟨ihn, ihz, ihp⟩
        · rw [if_neg (not_lt_of_lt hgt), if_pos hgt]
          have hne : x ≠ y := (ne_of_lt hgt).symm
          have hnot : ¬ x < y := not_lt_of_lt hgt
          refine ⟨⟨fun h => by simp at h, ?_⟩,
            ⟨fun h => by simp at h, fun h => absurd h.1 hne⟩,
            ⟨fun _ => Or.inl hgt, fun _ => by decide⟩⟩
          rintro (h | ⟨h, -⟩)
          · exact absurd h hnot
          · exact absurd h hne

/-- The traits `std::char_traits` meet the requirement on `compare`. -/
theorem char_traits.lawfulCompare [LinearOrder C] : (char_traits C).LawfulCompare where
  neg_iff := fun s1 s2 n h1 h2 => (char_traits.compare_spec n s1 s2 h1 h2).1
  zero_iff := fun s1 s2 n h1 h2 => (char_traits.compare_spec n s1 s2 h1 h2).2.1
  pos_iff := fun s1 s2 n h1 h2 => (char_traits.compare_spec n s1 s2 h1 h2).2.2

/-- C4 at a concrete input: `"abc"` against the first two characters of `"abd"`, with
`std::char_traits<char>`. -/
theorem lexicographical_compare_is_lex_witness :
    (lexicographical_compare (char_traits Char) "abc".toList 3 "abd".toList 2 < 0 ↔
      LexLess ("abc".toList.take 3) ("abd".toList.take 2)) ∧
    (lexicographical_compare (char_traits Char) "abc".toList 3 "abd".toList 2 = 0 ↔
      "abc".toList.take 3 = "abd".toList.take 2) ∧
    (0 < lexicographical_compare (char_traits Char) "abc".toList 3 "abd".toList 2 ↔
      LexLess ("abd".toList.take 2) ("abc".toList.take 3)) :=
  lexicographical_compare_is_lex (char_traits Char) char_traits.lawfulCompare
    "abc".toList "abd".toList 3 2 (by decide) (by decide)

theorem take_eq_take_iff (s1 s2 : List C) (n : Nat) :
    s1.take n = s2.take n ↔ ∀ i, i < n → s1[i]? = s2[i]? := by
  constructor
  · intro h i hi
    have := congrArg (fun l => l[i]?) h
    simpa [List.getElem?_take, hi] using this
  · intro h
    apply List.ext_getElem?
    intro i
    by_cases hi : i < n
    · simpa [List.getElem?_take, hi] using h i hi
    · simp [List.getElem?_take, hi]

/-- C5. With different lengths `lexicographical_compare` returns exactly `-1` or `+1`:
for `n1 < n2`, `-1` if `Traits::compare(s1, s2, n1) <= 0` and `+1` otherwise; for
`n1 > n2`, `+1` if `Traits::compare(s1, s2, n2) >= 0` and `-1` otherwise; with equal
lengths it returns the result of `Traits::compare` unchanged. For lawful `Traits`, a
proper initial segment gives `-1` when it is the first argument and `+1` when it is the
second, and `("ab",2,"abc",3)` gives `-1`, `("abc",3,"ab",2)` gives `+1`,
`("abc",3,"abd",3)` is negative, `("x",1,"x",1)` gives `0`. -/
theorem lexicographical_compare_cases [LT C] (T : Traits C) (s1 s2 : List C) (n1 n2 : Nat) :
    (n1 < n2 → lexicographical_compare T s1 n1 s2 n2
      = if T.compare s1 s2 n1 ≤ 0 then -1 else 1) ∧
    (n2 < n1 → lexicographical_compare T s1 n1 s2 n2
      = if T.compare s1 s2 n2 ≥ 0 then 1 else -1) ∧
    (n1 ≠ n2 → lexicographical_compare T s1 n1 s2 n2 = -1 ∨
      lexicographical_compare T s1 n1 s2 n2 = 1) ∧
    (n1 = n2 → lexicographical_compare T s1 n1 s2 n2 = T.compare s1 s2 n1) ∧
    (T.LawfulCompare → n1 < n2 → n1 ≤ s1.length → n2 ≤ s2.length →
      s1.take n1 = (s2.take n2).take n1 →
      lexicographical_compare T s1 n1 s2 n2 = -1 ∧
      lexicographical_compare T s2 n2 s1 n1 = 1) ∧
    (∀ T' : Traits Char, T'.LawfulCompare →
      lexicographical_compare T' "ab".toList 2 "abc".toList 3 = -1 ∧
      lexicographical_compare T' "abc".toList 3 "ab".toList 2 = 1 ∧
      lexicographical_compare T' "abc".toList 3 "abd".toList 3 < 0 ∧
      lexicographical_compare T' "x".toList 1 "x".toList 1 = 0) := by
  refine ⟨fun h => lexicographical_compare_lt s1 s2 h,
    fun h => lexicographical_compare_gt s1 s2 h, ?_, ?_, ?_, ?_⟩
  · intro hne
    rcases Nat.lt_or_gt_of_ne hne with h | h
    · rw [lexicographical_compare_lt s1 s2 h]
      split_ifs <;> simp
    · rw [lexicographical_compare_gt s1 s2 h]
      split_ifs <;> simp
  · rintro rfl
    exact lexicographical_compare_eq s1 s2 n1
  · intro hT hlt h1 h2 hpre
    rw [List.take_take, Nat.min_eq_left (Nat.le_of_lt hlt)] at hpre
    have hz : T.compare s1 s2 n1 = 0 := (hT.zero_iff s1 s2 n1 h1 (by omega)).2 hpre
    have hz' : T.compare s2 s1 n1 = 0 := (hT.zero_iff s2 s1 n1 (by omega) h1).2 hpre.symm
    rw [lexicographical_compare_lt s1 s2 hlt, lexicographical_compare_gt s2 s1 hlt, hz, hz']
    simp
  · intro T' hT'
    have e1 : T'.compare "ab".toList "abc".toList 2 = 0 :=
      (hT'.zero_iff _ _ 2 (by decide) (by decide)).2 (by decide)
    have e2 : T'.compare "abc".toList "ab".toList 2 = 0 :=
      (hT'.zero_iff _ _ 2 (by decide) (by decide)).2 (by decide)
    have e3 : T'.compare "abc".toList "abd".toList 3 < 0 :=
      (hT'.neg_iff _ _ 3 (by decide) (by decide)).2
        (Or.inl ⟨['a', 'b'], 'c', 'd', [], [], by decide, by decide, by decide⟩)
    have e4 : T'.compare "x".toList "x".toList 1 = 0 :=
      (hT'.zero_iff _ _ 1 (by decide) (by decide)).2 (by decide)
    refine ⟨?_, ?_, ?_, ?_⟩
    · rw [lexicographical_compare_lt _ _ (by decide), e1]; simp
    · rw [lexicographical_compare_gt _ _ (by decide), e2]; simp
    · rw [lexicographical_compare_eq]; exact e3
    · rw [lexicographical_compare_eq]; exact e4

/-- C5 with `std::char_traits<char>`: the four sample calls evaluated. -/
theorem lexicographical_compare_cases_witness :
    lexicographical_compare (char_traits Char) "ab".toList 2 "abc".toList 3 = -1 ∧
    lexicographical_compare (char_traits Char) "abc".toList 3 "ab".toList 2 = 1 ∧
    lexicographical_compare (char_traits Char) "abc".toList 3 "abd".toList 3 < 0 ∧
    lexicographical_compare (char_traits Char) "x".toList 1 "x".toList 1 = 0 :=
  (lexicographical_compare_cases (char_traits Char) [] [] 0 0).2.2.2.2.2
    (char_traits Char) char_traits.lawfulCompare

/-- C6. `lexicographical_compare(s1, n1, s2, n2)` returns 0 if and only if `n1 == n2`
and the two sequences are element-wise equal (for lawful `Traits`); for different
lengths it never returns 0, whatever `Traits::compare` returns. -/
theorem lexicographical_compare_eq_zero_iff [LT C] (T : Traits C) (hT : T.LawfulCompare)
    (s1 s2 : List C) (n1 n2 : Nat) (h1 : n1 ≤ s1.length) (h2 : n2 ≤ s2.length) :
    (lexicographical_compare T s1 n1 s2 n2 = 0 ↔
      n1 = n2 ∧ ∀ i, i < n1 → s1[i]? = s2[i]?) ∧
    (lexicographical_compare T s1 n1 s2 n2 = 0 ↔ n1 = n2 ∧ s1.take n1 = s2.take n2) ∧
    (∀ (T' : Traits C) (t1 t2 : List C),
      n1 ≠ n2 → lexicographical_compare T' t1 n1 t2 n2 ≠ 0) := by
  have hdiff : ∀ (T' : Traits C) (t1 t2 : List C),
      n1 ≠ n2 → lexicographical_compare T' t1 n1 t2 n2 ≠ 0 := by
    intro T' t1 t2 hne
    rcases Nat.lt_or_gt_of_ne hne with h | h
    · rw [lexicographical_compare_lt t1 t2 h]
      split_ifs <;> simp
    · rw [lexicographical_compare_gt t1 t2 h]
      split_ifs <;> simp
  have hmain : lexicographical_compare T s1 n1 s2 n2 = 0 ↔
      n1 = n2 ∧ s1.take n1 = s2.take n2 := by
    constructor
    · intro h0
      by_cases hn : n1 = n2
      · subst hn
        rw [lexicographical_compare_eq] at h0
        exact ⟨rfl, (hT.zero_iff s1 s2 n1 h1 h2).1 h0⟩
      · exact absurd h0 (hdiff T s1 s2 hn)
    · rintro ⟨rfl, heq⟩
      rw [lexicographical_compare_eq]
      exact (hT.zero_iff s1 s2 n1 h1 h2).2 heq
  refine ⟨?_, hmain, hdiff⟩
  rw [hmain]
  constructor
  · rintro ⟨rfl, heq⟩
    exact ⟨rfl, (take_eq_take_iff s1 s2 n1).1 heq⟩
  · rintro ⟨rfl, heq⟩
    exact ⟨rfl, (take_eq_take_iff s1 s2 n1).2 heq⟩

/-- C6 at a concrete input: `"x"` against `"x"` with `std::char_traits<char>`. -/
theorem lexicographical_compare_eq_zero_iff_witness :
    lexicographical_compare (char_traits Char) "x".toList 1 "x".toList 1 = 0 :=
  ((lexicographical_compare_eq_zero_iff (char_traits Char) char_traits.lawfulCompare
    "x".toList "x".toList 1 1 (by decide) (by decide)).2.1).2 ⟨rfl, rfl⟩

end Compare

/-! ## Properties of `max_digits` and `raw_to_string` -/

theorem raw_to_string.loop_pos (x : Int) (buf : List Char) (h : 0 < x) :
    raw_to_string.loop x buf
      = raw_to_string.loop (x / 10) (digit_char (x % 10) :: buf) := by
  rw [raw_to_string.loop, if_pos h, Int.tdiv_eq_ediv (by omega) (by omega),
    Int.tmod_eq_emod (by omega) (by omega)]

theorem raw_to_string.loop_nonpos (x : Int) (buf : List Char) (h : x ≤ 0) :
    raw_to_string.loop x buf = buf := by
  rw [raw_to_string.loop, if_neg (by omega)]

theorem raw_to_string.loop_natCast (n : Nat) (buf : List Char) (h : 0 < n) :
    raw_to_string.loop (n : Int) buf
      = raw_to_string.loop ((n / 10 : Nat) : Int) (digit_char ((n % 10 : Nat) : Int) :: buf) := by
  rw [raw_to_string.loop_pos _ _ (by exact_mod_cast h)]
  push_cast
  rfl

/-- The loop only puts characters in front of what is already there. -/
theorem raw_to_string.loop_append (n : Nat) :
    ∀ buf : List Char,
      raw_to_string.loop (n : Int) buf = raw_to_string.loop (n : Int) [] ++ buf := by
  induction n using Nat.strong_induction_on with
  | _ n ih =>
    intro buf
    rcases Nat.eq_zero_or_pos n with h0 | hpos
    · subst h0
      rw [raw_to_string.loop_nonpos _ _ (by simp), raw_to_string.loop_nonpos _ _ (by simp)]
      rfl
    · rw [raw_to_string.loop_natCast n buf hpos, raw_to_string.loop_natCast n [] hpos,
        ih (n / 10) (by omega) (_ :: buf), ih (n / 10) (by omega) [_]]
      simp

theorem raw_to_string.loop_step (n : Nat) (h : 0 < n) :
    raw_to_string.loop (n : Int) []
      = raw_to_string.loop ((n / 10 : Nat) : Int) [] ++ [digit_char ((n % 10 : Nat) : Int)] := by
  rw [raw_to_string.loop_natCast n [] h, raw_to_string.loop_append]

theorem digit_char_spec (d : Nat) (h : d < 10) :
    (digit_char (d : Int)).isDigit = true ∧
    (digit_char (d : Int)).toNat - '0'.toNat = d ∧
    (digit_char (d : Int) = '0' → d = 0) := by
  interval_cases d <;> decide

theorem parse_decimal_append (cs : List Char) (c : Char) :
    parse_decimal (cs ++ [c]) = 10 * parse_decimal cs + (c.toNat - '0'.toNat) := by
  simp [parse_decimal, List.foldl_append]

/-- The digit run of a positive value: decimal digits only, no leading zero, value and
length as for the canonical decimal representation. -/
theorem raw_to_string.loop_spec (n : Nat) (h : 0 < n) :
    (∀ c ∈ raw_to_string.loop (n : Int) [], c.isDigit = true) ∧
    parse_decimal (raw_to_string.loop (n : Int) []) = n ∧
    raw_to_string.loop (n : Int) [] ≠ [] ∧
    (raw_to_string.loop (n : Int) []).head? ≠ some '0' ∧
    10 ^ (raw_to_string.loop (n : Int) []).length ≤ 10 * n ∧
    n < 10 ^ (raw_to_string.loop (n : Int) []).length := by
  induction n using Nat.strong_induction_on with
  | _ n ih =>
    obtain ⟨hd1, hd2, hd3⟩ := digit_char_spec (n % 10) (Nat.mod_lt _ (by decide))
    rw [raw_to_string.loop_step n h]
    rcases Nat.eq_zero_or_pos (n / 10) with hq | hq
    · rw [hq, raw_to_string.loop_nonpos _ _ (by simp)]
      have hn : n % 10 = n := by omega
      rw [hn] at hd1 hd2 hd3 ⊢
      refine ⟨?_, ?_, by simp, ?_, ?_, ?_⟩
      · intro c hc
        simp only [List.nil_append, List.mem_singleton] at hc
        rw [hc]; exact hd1
      · simpa [parse_decimal] using hd2
      · simp only [List.nil_append, List.head?_cons, ne_eq, Option.some.injEq]
        intro h0
        have := hd3 h0
        omega
      · simp; omega
      · simp; omega
    · obtain ⟨i1, i2, i3, i4, i5, i6⟩ := ih (n / 10) (by omega) hq
      refine ⟨?_, ?_, by simp, ?_, ?_, ?_⟩
      · intro c hc
        rcases List.mem_append.1 hc with hc | hc
        · exact i1 c hc
        · simp only [List.mem_singleton] at hc
          rw [hc]; exact hd1
      · rw [parse_decimal_append, i2, hd2]
        omega
      · cases hl : raw_to_string.loop ((n / 10 : Nat) : Int) [] with
        | nil => exact absurd hl i3
        | cons c cs =>
          rw [hl] at i4
          simpa using i4
      · rw [List.length_append, List.length_singleton, pow_succ]
        omega
      · rw [List.length_append, List.length_singleton, pow_succ]
        omega

theorem raw_to_string.loop_length_le (x : Int) (k : Nat) (h : x < 10 ^ k) :
    (raw_to_string.loop x []).length ≤ k := by
  rcases le_or_lt x 0 with hx | hx
  · rw [raw_to_string.loop_nonpos _ _ hx]
    simp
  · obtain ⟨n, rfl⟩ := Int.eq_ofNat_of_zero_le (le_of_lt hx)
    have hn : 0 < n := by exact_mod_cast hx
    obtain ⟨-, -, -, -, h5, -⟩ := raw_to_string.loop_spec n hn
    have hlt : n < 10 ^ k := by exact_mod_cast h
    by_contra hcon
    have hk : k + 1 ≤ (raw_to_string.loop (n : Int) []).length := by omega
    have := Nat.pow_le_pow_right (by decide : 0 < 10) hk
    rw [pow_succ] at this
    omega

theorem raw_to_string_nonneg_aux (x : Int) (hx : 0 < x) :
    (parse_decimal (raw_to_string_unsigned x) : Int) = x := by
  obtain ⟨n, rfl⟩ := Int.eq_ofNat_of_zero_le (le_of_lt hx)
  have hn : 0 < n := by exact_mod_cast hx
  unfold raw_to_string_unsigned
  rw [if_neg (by omega), (raw_to_string.loop_spec n hn).2.1]

/-- C7. For every non-negative `x`, both overloads of `raw_to_string` write the canonical
decimal representation of `x`: only digits, reading them most significant first gives
`x`, the text is `"0"` for `x == 0` and otherwise does not start with `'0'`, and its
length (end minus returned pointer) is the number `L` of decimal digits of `x`
(`L = 1` for 0, `10^(L-1) <= x < 10^L` otherwise). `0` gives `"0"`, `255` gives `"255"`. -/
theorem raw_to_string_nonneg (Integer : IntKind) (x : Int) (hx : 0 ≤ x) :
    (∀ neg_overflow : Int,
      raw_to_string_signed Integer neg_overflow x = raw_to_string_unsigned x) ∧
    (∀ c ∈ raw_to_string_unsigned x, c.isDigit = true) ∧
    (parse_decimal (raw_to_string_unsigned x) : Int) = x ∧
    (x = 0 → raw_to_string_unsigned x = ['0']) ∧
    (x ≠ 0 → (raw_to_string_unsigned x).head? ≠ some '0') ∧
    (x = 0 → (raw_to_string_unsigned x).length = 1) ∧
    (0 < x → (10 : Int) ^ ((raw_to_string_unsigned x).length - 1) ≤ x ∧
      x < (10 : Int) ^ (raw_to_string_unsigned x).length) ∧
    raw_to_string_unsigned 0 = "0".toList ∧
    raw_to_string_unsigned 255 = "255".toList := by
  have hagree : ∀ neg_overflow : Int,
      raw_to_string_signed Integer neg_overflow x = raw_to_string_unsigned x := by
    intro neg_overflow
    unfold raw_to_string_signed raw_to_string_unsigned
    by_cases h0 : x = 0
    · rw [if_pos h0, if_pos h0]
    · rw [if_neg h0, if_neg h0, if_neg (by omega)]
  have h255 : raw_to_string_unsigned 255 = "255".toList := by
    simp [raw_to_string_unsigned, raw_to_string.loop_pos, raw_to_string.loop_nonpos, digit_char]
  have hzero : raw_to_string_unsigned 0 = "0".toList := by
    simp [raw_to_string_unsigned]
  refine ⟨hagree, ?_⟩
  by_cases h0 : x = 0
  · subst h0
    rw [hzero]
    refine ⟨by decide, by decide, fun _ => rfl, fun h => absurd rfl h, fun _ => rfl,
      fun h => absurd h (by decide), rfl, h255⟩
  · obtain ⟨n, rfl⟩ := Int.eq_ofNat_of_zero_le hx
    have hn : 0 < n := by omega
    have hout : raw_to_string_unsigned (n : Int) = raw_to_string.loop (n : Int) [] := by
      unfold raw_to_string_unsigned
      rw [if_neg h0]
    obtain ⟨s1, s2, s3, s4, s5, s6⟩ := raw_to_string.loop_spec n hn
    rw [hout]
    refine ⟨s1, by rw [s2], fun h => absurd h h0, fun _ => s4, fun h => absurd h h0, ?_,
      hzero, h255⟩
    intro _
    constructor
    · obtain ⟨m, hm⟩ : ∃ m, (raw_to_string.loop (n : Int) []).length = m + 1 := by
        cases hl : raw_to_string.loop (n : Int) [] with
        | nil => exact absurd hl s3
        | cons c cs => exact ⟨cs.length, rfl⟩
      rw [hm] at s5
      rw [hm, Nat.add_sub_cancel]
      rw [pow_succ] at s5
      have : 10 ^ m ≤ n := by omega
      exact_mod_cast this
    · exact_mod_cast s6

/-- C7 at a concrete input: `255` as an unsigned 8-bit integer. -/
theorem raw_to_string_nonneg_witness :
    raw_to_string_signed ⟨8, false⟩ 0 255 = raw_to_string_unsigned 255 ∧
    (parse_decimal (raw_to_string_unsigned 255) : Int) = 255 ∧
    raw_to_string_unsigned 255 = "255".toList :=
  have h := raw_to_string_nonneg ⟨8, false⟩ 255 (by decide)
  ⟨h.1 0, h.2.2.1, h.2.2.2.2.2.2.2.2⟩

theorem IntKind.conv_le_max (k : IntKind) (v : Int) : k.conv v ≤ k.max := by
  unfold IntKind.conv IntKind.max
  cases k.signed
  · simp only [Bool.false_eq_true, if_false]
    have hp : (0 : Int) < 2 ^ k.bits := by positivity
    have := Int.emod_lt_of_pos v hp
    omega
  · simp only [if_true]
    have hp : (0 : Int) < 2 ^ k.bits := by positivity
    have hle : (2 : Int) ^ k.bits ≤ 2 * 2 ^ (k.bits - 1) := by
      rcases Nat.eq_zero_or_pos k.bits with hb | hb
      · rw [hb]; simp
      · obtain ⟨m, hm⟩ : ∃ m, k.bits = m + 1 := ⟨k.bits - 1, by omega⟩
        rw [hm, pow_succ]
        simp
        omega
    have := Int.emod_lt_of_pos (v + 2 ^ (k.bits - 1)) hp
    omega

/-- Away from the most negative value the negation does not overflow: `x = -x` gives
`-x`, whatever the width of the type. -/
theorem IntKind.negate_eq_neg (Integer : IntKind) (hs : Integer.signed = true)
    (neg_overflow x : Int) (hmin : Integer.min < x) (hneg : x < 0) :
    Integer.negate neg_overflow x = -x := by
  have hb : 0 < Integer.bits := by
    rcases Nat.eq_zero_or_pos Integer.bits with hb | hb
    · exfalso
      unfold IntKind.min at hmin
      rw [hs, hb] at hmin
      simp at hmin
      omega
    · exact hb
  have hmax : -x ≤ Integer.max := by
    unfold IntKind.min at hmin
    unfold IntKind.max
    rw [hs] at hmin ⊢
    simp only [if_true] at hmin ⊢
    omega
  unfold IntKind.negate
  split_ifs
  · exact IntKind.conv_eq_self _ _ hb (by omega) hmax
  · rfl

/-- Away from the most negative value, the signed overload writes `'-'` followed by the
digit run of `-x`, and the text reads back as `x`. -/
theorem raw_to_string_signed_neg (Integer : IntKind) (hs : Integer.signed = true)
    (neg_overflow x : Int) (hmin : Integer.min < x) (hneg : x < 0) :
    raw_to_string_signed Integer neg_overflow x = '-' :: raw_to_string_unsigned (-x) ∧
    parse_signed_decimal (raw_to_string_signed Integer neg_overflow x) = x := by
  have hout : raw_to_string_signed Integer neg_overflow x
      = '-' :: raw_to_string_unsigned (-x) := by
    unfold raw_to_string_signed raw_to_string_unsigned
    rw [if_neg (by omega), if_pos hneg, IntKind.negate_eq_neg Integer hs _ x hmin hneg,
      if_neg (by omega)]
  refine ⟨hout, ?_⟩
  rw [hout]
  have hval := (raw_to_string_nonneg_aux (-x) (by omega))
  simp only [parse_signed_decimal]
  rw [hval]
  omega

/-- C8, the code at the most negative value. For `x = -128` as a signed 8-bit integer
(and likewise for `-32768` as a 16-bit integer) the negation is done in `int` and
converted back, which gives `x` again; the digit loop does not run, and the text written
is `"-"` alone: it is not `"-128"` and does not read back as `-128`. At the minimum of
the 32- and 64-bit types the negation overflows, and the text is `'-'` followed by the
digit run of whatever the overflow leaves in `x`: `"-"` alone when it wraps around. -/
theorem raw_to_string_signed_min :
    IntKind.InRange ⟨8, true⟩ (-128) ∧
    IntKind.conv ⟨8, true⟩ (- (-128)) = -128 ∧
    (∀ v : Int, raw_to_string_signed ⟨8, true⟩ v (-128) = "-".toList) ∧
    (∀ v : Int, raw_to_string ⟨8, true⟩ v 4 (-128) = some "-".toList) ∧
    (∀ v : Int, raw_to_string_signed ⟨8, true⟩ v (-128) ≠ "-128".toList) ∧
    (∀ v : Int, parse_signed_decimal (raw_to_string_signed ⟨8, true⟩ v (-128)) ≠ -128) ∧
    (∀ v : Int, raw_to_string_signed ⟨16, true⟩ v (-32768) = "-".toList) ∧
    (∀ v : Int, raw_to_string_signed ⟨32, true⟩ v (-2147483648)
      = '-' :: raw_to_string.loop v []) ∧
    (∀ v : Int, raw_to_string_signed ⟨64, true⟩ v (-9223372036854775808)
      = '-' :: raw_to_string.loop v []) ∧
    raw_to_string_signed ⟨32, true⟩ (-2147483648) (-2147483648) = "-".toList ∧
    raw_to_string_signed ⟨64, true⟩ (-9223372036854775808) (-9223372036854775808)
      = "-".toList := by
  have h8 : ∀ v : Int, raw_to_string_signed ⟨8, true⟩ v (-128) = "-".toList := by
    intro v
    simp [raw_to_string_signed, raw_to_string.loop_nonpos, IntKind.negate, int_bits,
      IntKind.conv]
  have h32 : ∀ v : Int, raw_to_string_signed ⟨32, true⟩ v (-2147483648)
      = '-' :: raw_to_string.loop v [] := by
    intro v
    simp [raw_to_string_signed, IntKind.negate, int_bits, IntKind.max]
  have h64 : ∀ v : Int, raw_to_string_signed ⟨64, true⟩ v (-9223372036854775808)
      = '-' :: raw_to_string.loop v [] := by
    intro v
    simp [raw_to_string_signed, IntKind.negate, int_bits, IntKind.max]
  refine ⟨by decide, by decide, h8, ?_, ?_, ?_, ?_, h32, h64, ?_, ?_⟩
  · intro v
    simp [raw_to_string, max_digits, IntKind.sizeof, double_2_41_num, h8 v]
  · intro v
    rw [h8 v]; decide
  · intro v
    rw [h8 v]; decide
  · intro v
    simp [raw_to_string_signed, raw_to_string.loop_nonpos, IntKind.negate, int_bits,
      IntKind.conv]
  · rw [h32, raw_to_string.loop_nonpos _ _ (by decide)]
    rfl
  · rw [h64, raw_to_string.loop_nonpos _ _ (by decide)]
    rfl

theorem max_digits_values :
    max_digits 1 = 4 ∧ max_digits 2 = 6 ∧ max_digits 4 = 11 ∧ max_digits 8 = 21 := by
  decide

/-- What `x = -x` leaves in `x` is at most `2 ^ bits - 1`, when the outcome of an
overflow can be read from an object of the type. -/
theorem IntKind.negate_le (Integer : IntKind) (neg_overflow x : Int)
    (hv : Integer.IsObjectValue neg_overflow) :
    Integer.negate neg_overflow x ≤ 2 ^ Integer.bits - 1 := by
  have hmaxle : Integer.max ≤ (2 : Int) ^ Integer.bits - 1 := by
    unfold IntKind.max
    split_ifs
    · have : (2 : Int) ^ (Integer.bits - 1) ≤ 2 ^ Integer.bits :=
        pow_le_pow_right₀ (by norm_num) (by omega)
      omega
    · exact le_refl _
  unfold IntKind.negate
  split_ifs with h1 h2
  · exact le_trans (Integer.conv_le_max (-x)) hmaxle
  · exact le_trans h2 hmaxle
  · exact hv.2

theorem raw_to_string_signed_length_le (Integer : IntKind) (neg_overflow x : Int) (k : Nat)
    (hv : Integer.IsObjectValue neg_overflow)
    (hk : (2 : Int) ^ Integer.bits - 1 < 10 ^ k) (hx : x ≤ 2 ^ Integer.bits - 1) :
    (raw_to_string_signed Integer neg_overflow x).length ≤ k + 1 := by
  unfold raw_to_string_signed
  split_ifs with h0 hneg
  · simp
  · have := raw_to_string.loop_length_le (Integer.negate neg_overflow x) k
      (lt_of_le_of_lt (Integer.negate_le neg_overflow x hv) hk)
    simp only [List.length_cons]
    omega
  · have := raw_to_string.loop_length_le x k (lt_of_le_of_lt hx hk)
    omega

theorem raw_to_string_unsigned_length_le (x : Int) (k : Nat) (hx : x < 10 ^ k) :
    (raw_to_string_unsigned x).length ≤ k + 1 := by
  unfold raw_to_string_unsigned
  split_ifs with h0
  · simp
  · have := raw_to_string.loop_length_le x k hx
    omega

/-- The two texts at the minimum of `int`: `"-"` when the negation wraps around,
`"-2147483648"` when the loop goes on with the magnitude. -/
theorem raw_to_string_signed_int_min_texts :
    raw_to_string_signed ⟨32, true⟩ (-2147483648) (-2147483648) = "-".toList ∧
    raw_to_string_signed ⟨32, true⟩ 2147483648 (-2147483648) = "-2147483648".toList := by
  constructor
  · simp [raw_to_string_signed, IntKind.negate, int_bits, IntKind.max,
      raw_to_string.loop_nonpos]
  · simp [raw_to_string_signed, IntKind.negate, int_bits, IntKind.max,
      raw_to_string.loop_pos, raw_to_string.loop_nonpos, digit_char]

/-! ## Properties of `find_not_of` -/

section Find

variable {C : Type}

theorem char_traits.find_eq_none_iff [DecidableEq C] (str : List C) :
    ∀ (n : Nat) (c : C), char_traits.find str n c = none ↔ c ∉ str.take n := by
  induction str with
  | nil =>
    intro n c
    cases n <;> simp [char_traits.find]
  | cons x xs ih =>
    intro n c
    cases n with
    | zero => simp [char_traits.find]
    | succ n =>
      simp only [char_traits.find, List.take_succ_cons, List.mem_cons, not_or]
      by_cases hxc : x = c
      · simp [hxc]
      · rw [if_neg hxc]
        simp only [Option.map_eq_none', ih n c]
        exact ⟨fun h => ⟨fun h' => hxc h'.symm, h⟩, fun h => h.2⟩

/-- The traits `std::char_traits` meet the requirement on `find`. -/
theorem char_traits.lawfulFind [LinearOrder C] : (char_traits C).LawfulFind :=
  fun str n c _ => char_traits.find_eq_none_iff str n c

theorem find_not_of_nil (T : Traits C) (str : List C) (n : Nat) :
    find_not_of T [] str n = 0 := by
  simp [find_not_of]

theorem find_not_of_cons (T : Traits C) (c : C) (rest str : List C) (n : Nat) :
    find_not_of T (c :: rest) str n
      = if (T.find str n c).isNone then 0 else find_not_of T rest str n + 1 := by
  simp [find_not_of]

/-- C10. `find_not_of(first, last, str, n)` returns the position `p` of the first element
of `[first, last)` that is not among the first `n` characters of `str`, or `last` if
there is none: every element before `p` is in the set, and `p == last` or the element at
`p` is not in the set; `p == last` exactly when every element is in the set. On `"aaab"`
with the set `{'a'}` the result is 3, the position of `'b'`; on `"aaa"` it is the end. -/
theorem find_not_of_spec (T : Traits C) (hT : T.LawfulFind) (seq str : List C) (n : Nat)
    (hn : n ≤ str.length) :
    find_not_of T seq str n ≤ seq.length ∧
    (∀ i, i < find_not_of T seq str n → ∃ c, seq[i]? = some c ∧ c ∈ str.take n) ∧
    (find_not_of T seq str n = seq.length ∨
      ∃ c, seq[find_not_of T seq str n]? = some c ∧ c ∉ str.take n) ∧
    (find_not_of T seq str n = seq.length ↔ ∀ c ∈ seq, c ∈ str.take n) ∧
    (∀ T' : Traits Char, T'.LawfulFind →
      find_not_of T' "aaab".toList "a".toList 1 = 3 ∧
      "aaab".toList[3]? = some 'b' ∧
      find_not_of T' "aaa".toList "a".toList 1 = "aaa".toList.length) := by
  refine ⟨?_, ?_, ?_, ?_, ?_⟩
  · induction seq with
    | nil => simp [find_not_of_nil]
    | cons c rest ih =>
      rw [find_not_of_cons]
      split_ifs
      · simp
      · simpa using ih
  · induction seq with
    | nil =>
      intro i hi
      simp [find_not_of_nil] at hi
    | cons c rest ih =>
      intro i hi
      rw [find_not_of_cons] at hi
      split_ifs at hi with hc
      · omega
      · cases i with
        | zero =>
          refine ⟨c, by simp, ?_⟩
          by_contra hmem
          exact hc (by rw [(hT str n c hn).2 hmem]; rfl)
        | succ i => simpa using ih i (by omega)
  · induction seq with
    | nil => left; simp [find_not_of_nil]
    | cons c rest ih =>
      rw [find_not_of_cons]
      split_ifs with hc
      · right
        refine ⟨c, by simp, ?_⟩
        exact (hT str n c hn).1 (Option.isNone_iff_eq_none.1 hc)
      · rcases ih with h | ⟨d, hd, hnot⟩
        · left; simp [h]
        · right
          exact ⟨d, by simpa using hd, hnot⟩
  · induction seq with
    | nil => simp [find_not_of_nil]
    | cons c rest ih =>
      rw [find_not_of_cons]
      split_ifs with hc
      · have hnot := (hT str n c hn).1 (Option.isNone_iff_eq_none.1 hc)
        constructor
        · intro h; simp at h
        · intro h; exact absurd (h c (List.mem_cons_self c rest)) hnot
      · have hmem : c ∈ str.take n := by
          by_contra hmem
          exact hc (by rw [(hT str n c hn).2 hmem]; rfl)
        simp only [List.length_cons, Nat.add_right_cancel_iff, List.mem_cons, forall_eq_or_imp]
        rw [ih]
        exact ⟨fun h => ⟨hmem, h⟩, fun h => h.2⟩
  · intro T' hT'
    have ha : T'.find ['a'] 1 'a' ≠ none := fun hf =>
      absurd ((hT' ['a'] 1 'a' (by decide)).1 hf) (by decide)
    have hb : T'.find ['a'] 1 'b' = none := (hT' ['a'] 1 'b' (by decide)).2 (by decide)
    have e1 : "aaab".toList = ['a', 'a', 'a', 'b'] := rfl
    have e2 : "aaa".toList = ['a', 'a', 'a'] := rfl
    refine ⟨?_, rfl, ?_⟩
    · rw [e1]
      simp [find_not_of_cons, find_not_of_nil, ha, hb]
    · rw [e2]
      simp [find_not_of_cons, find_not_of_nil, ha]

/-- C10 with `std::char_traits<char>`: the two sample calls evaluated. -/
theorem find_not_of_spec_witness :
    find_not_of (char_traits Char) "aaab".toList "a".toList 1 = 3 ∧
    "aaab".toList[3]? = some 'b' ∧
    find_not_of (char_traits Char) "aaa".toList "a".toList 1 = "aaa".toList.length :=
  (find_not_of_spec (char_traits Char) char_traits.lawfulFind "aaab".toList "a".toList 1
    (by decide)).2.2.2.2 (char_traits Char) char_traits.lawfulFind

end Find


/-! ## Properties of the selection of the storage class and of `smallest_width` -/

theorem IntKind.max_nonneg (k : IntKind) : 0 ≤ k.max := by
  unfold IntKind.max
  have h1 : (0 : Int) < 2 ^ (k.bits - 1) := by positivity
  have h2 : (0 : Int) < 2 ^ k.bits := by positivity
  split_ifs <;> omega

/-- C11. With the null optimization enabled, `optimization_base` names exactly one class
for every capacity `N` and character type with maximum `M`: the empty specialisation if
and only if `N == 0`, `fixed_string_base_null` (Encoded) if and only if `0 < N <= M`, and
the primary `fixed_string_base_zero` (Sized) if and only if `N > M`; two character types
with the same maximum give the same choice. -/
theorem optimization_base_enabled (N : Nat) (CharT : IntKind) :
    (optimization_base false N CharT = .fixed_string_base_zero_0 ↔ N = 0) ∧
    (optimization_base false N CharT = .fixed_string_base_null ↔
      0 < N ∧ (N : Int) ≤ CharT.max) ∧
    (optimization_base false N CharT = .fixed_string_base_zero_primary ↔
      CharT.max < (N : Int)) ∧
    (∀ CharT2 : IntKind, CharT2.max = CharT.max →
      optimization_base false N CharT2 = optimization_base false N CharT) := by
  have hM := CharT.max_nonneg
  have key : ∀ K : IntKind, optimization_base false N K =
      if N = 0 then StorageClass.fixed_string_base_zero_0
      else if (N : Int) ≤ K.max then StorageClass.fixed_string_base_null
      else StorageClass.fixed_string_base_zero_primary := by
    intro K
    unfold optimization_base fixed_string_base_zero_class
    by_cases h0 : N = 0
    · simp [h0]
    · by_cases hle : (N : Int) ≤ K.max <;> simp [h0, hle]
  refine ⟨?_, ?_, ?_, ?_⟩
  · rw [key]
    by_cases h0 : N = 0
    · simp [h0]
    · by_cases hle : (N : Int) ≤ CharT.max <;> simp [h0, hle]
  · rw [key]
    by_cases h0 : N = 0
    · simp [h0]
    · have : 0 < N := Nat.pos_of_ne_zero h0
      by_cases hle : (N : Int) ≤ CharT.max <;> simp [h0, hle, this]
  · rw [key]
    by_cases h0 : N = 0
    · subst h0
      simp
      exact hM
    · by_cases hle : (N : Int) ≤ CharT.max
      · simp [h0, hle]
      · simp [h0, hle]
        omega
  · intro CharT2 h
    rw [key, key, h]

theorem smallest_width_bits (N : Nat) (hN : N < 2 ^ 64) :
    (smallest_width N).bits =
      if N ≤ 255 then 8 else if N ≤ 65535 then 16 else if N ≤ 4294967295 then 32 else 64 := by
  unfold smallest_width
  simp only [CType.numeric_limits_max, CType.bits]
  split_ifs <;> first | rfl | omega

/-- C12. For every `N` from 0 to `2^64 - 1`, `smallest_width<N>` is the narrowest of the
unsigned types of 8, 16, 32 and 64 bits whose maximum `2^w - 1` is at least `N`: the
chosen width `w` has `N <= 2^w - 1`, no narrower available width has, and
`255 -> 8`, `256 -> 16`, `65535 -> 16`, `65536 -> 32`, `2^32 -> 64` bits. -/
theorem smallest_width_is_least (N : Nat) (hN : N < 2 ^ 64) :
    ((smallest_width N).bits = 8 ∨ (smallest_width N).bits = 16 ∨
      (smallest_width N).bits = 32 ∨ (smallest_width N).bits = 64) ∧
    N ≤ 2 ^ (smallest_width N).bits - 1 ∧
    N ≤ (smallest_width N).numeric_limits_max ∧
    (∀ w : Nat, (w = 8 ∨ w = 16 ∨ w = 32 ∨ w = 64) → w < (smallest_width N).bits →
      ¬ N ≤ 2 ^ w - 1) ∧
    (smallest_width 255).bits = 8 ∧ (smallest_width 256).bits = 16 ∧
    (smallest_width 65535).bits = 16 ∧ (smallest_width 65536).bits = 32 ∧
    (smallest_width (2 ^ 32)).bits = 64 := by
  have hmax := smallest_width_holds N hN
  have hbits := smallest_width_bits N hN
  refine ⟨?_, hmax, hmax, ?_, by decide, by decide, by decide, by decide, by decide⟩
  · rw [hbits]
    split_ifs <;> simp
  · intro w hw hlt
    rw [hbits] at hlt
    split_ifs at hlt with h1 h2 h3 <;> rcases hw with rfl | rfl | rfl | rfl <;> omega

/-- C12 at concrete inputs: the bounds for `N = 256`. -/
theorem smallest_width_is_least_witness :
    256 ≤ 2 ^ (smallest_width 256).bits - 1 ∧
    (∀ w : Nat, (w = 8 ∨ w = 16 ∨ w = 32 ∨ w = 64) → w < (smallest_width 256).bits →
      ¬ 256 ≤ 2 ^ w - 1) :=
  have h := smallest_width_is_least 256 (by decide)
  ⟨h.2.1, h.2.2.2.1⟩

/-! ## Invariants of the storage variants -/

theorem list_set_eq_self {α : Type} (l : List α) (i : Nat) (a : α) (h : l[i]? = some a) :
    l.set i a = l := by
  have hi : i < l.length := by
    by_contra hcon
    rw [List.getElem?_eq_none (by omega)] at h
    exact absurd h (by simp)
  apply List.ext_getElem?
  intro j
  by_cases hij : i = j
  · subst hij
    rw [List.getElem?_set_self hi, h]
  · rw [List.getElem?_set_ne hij]

theorem data_init_length (allow_uninit_mem : Bool) (N : Nat) (raw : List Int)
    (hraw : allow_uninit_mem = true → raw.length = N + 1) :
    (data_init allow_uninit_mem N raw).length = N + 1 := by
  unfold data_init
  cases allow_uninit_mem
  · simp
  · simpa using hraw rfl

/-- The value `size_impl()` reads when the last element holds `N - k`. -/
theorem fixed_string_base_null.size_impl_of_last (N k : Nat) (st : fixed_string_base_null)
    (hsz : N < 2 ^ 64) (hk : k ≤ N) (h : st.data_[N]? = some ((N : Int) - (k : Int))) :
    st.size_impl N = k := by
  unfold fixed_string_base_null.size_impl
  rw [List.getD_eq_getElem?_getD, h]
  simp only [Option.getD_some]
  have h1 : ((N : Int) - (k : Int)) = ((N - k : Nat) : Int) := by omega
  rw [h1, size_t_conv_natCast _ (by omega)]
  have h2 : ((N : Int) - ((N - k : Nat) : Int)) = ((k : Nat) : Int) := by omega
  rw [h2, size_t_conv_natCast _ (by omega)]

/-- What `set_size(n)` stores and returns when `n <= N <= max of CharT`. -/
theorem fixed_string_base_null.set_size_eq (N : Nat) (CharT : IntKind)
    (st : fixed_string_base_null) (n : Nat) (hN : 0 < N) (hmax : (N : Int) ≤ CharT.max)
    (hsz : N < 2 ^ 64) (hn : n ≤ N) :
    st.set_size N CharT n = (⟨st.data_.set N ((N : Int) - (n : Int))⟩, N - n) := by
  have hb : 0 < CharT.bits := CharT.bits_pos_of_lt_max N (by omega) hmax
  have hsub : ((N : Int) - (n : Int)) = ((N - n : Nat) : Int) := by omega
  have hfit : CharT.conv ((N - n : Nat) : Int) = ((N - n : Nat) : Int) :=
    CharT.conv_eq_self _ hb (by omega) (by omega)
  unfold fixed_string_base_null.set_size
  simp only
  rw [hsub, size_t_conv_natCast _ (by omega), hfit, size_t_conv_natCast _ (by omega)]

theorem fixed_string_base_null.inv_set_size (N : Nat) (CharT : IntKind)
    (st : fixed_string_base_null) (n : Nat) (hN : 0 < N) (hmax : (N : Int) ≤ CharT.max)
    (hsz : N < 2 ^ 64) (hlen : st.data_.length = N + 1) (hn : n ≤ N) :
    (st.set_size N CharT n).1.size_impl N = n ∧
    fixed_string_base_null.Inv N (st.set_size N CharT n).1 := by
  rw [fixed_string_base_null.set_size_eq N CharT st n hN hmax hsz hn]
  have hlast : (st.data_.set N ((N : Int) - (n : Int)))[N]? = some ((N : Int) - (n : Int)) :=
    List.getElem?_set_self (by omega)
  have hsize := fixed_string_base_null.size_impl_of_last N n
    ⟨st.data_.set N ((N : Int) - (n : Int))⟩ hsz hn hlast
  refine ⟨hsize, ?_, ?_, ?_⟩
  · simp [hlen]
  · rw [hsize]; exact hn
  · rw [hsize]; exact hlast

theorem fixed_string_base_null.inv_term_impl (N : Nat) (st : fixed_string_base_null)
    (hsz : N < 2 ^ 64) (hinv : fixed_string_base_null.Inv N st) :
    (st.term_impl N).size_impl N = st.size_impl N ∧
    fixed_string_base_null.Inv N (st.term_impl N) ∧
    (st.term_impl N).data_[st.size_impl N]? = some 0 ∧
    (st.size_impl N < N → (st.term_impl N).data_[N]? = st.data_[N]?) ∧
    (st.size_impl N = N → st.data_[N]? = some 0 ∧ st.term_impl N = st) := by
  obtain ⟨hlen, hle, hlast⟩ := hinv
  have hzero : (st.term_impl N).data_[st.size_impl N]? = some 0 := by
    unfold fixed_string_base_null.term_impl
    exact List.getElem?_set_self (by omega)
  have hkeep : st.size_impl N < N → (st.term_impl N).data_[N]? = st.data_[N]? := by
    intro hlt
    unfold fixed_string_base_null.term_impl
    exact List.getElem?_set_ne (by omega)
  have hfix : st.size_impl N = N → st.data_[N]? = some 0 ∧ st.term_impl N = st := by
    intro heq
    have h0 : st.data_[N]? = some 0 := by
      rw [hlast, heq]; simp
    refine ⟨h0, ?_⟩
    unfold fixed_string_base_null.term_impl
    rw [heq, list_set_eq_self _ _ _ h0]
  have hsize : (st.term_impl N).size_impl N = st.size_impl N := by
    rcases Nat.lt_or_ge (st.size_impl N) N with hlt | hge
    · apply fixed_string_base_null.size_impl_of_last N _ _ hsz hle
      rw [hkeep hlt]; exact hlast
    · rw [(hfix (by omega)).2]
  refine ⟨hsize, ⟨?_, ?_, ?_⟩, hzero, hkeep, hfix⟩
  · unfold fixed_string_base_null.term_impl
    simp [hlen]
  · rw [hsize]; exact hle
  · rw [hsize]
    rcases Nat.lt_or_ge (st.size_impl N) N with hlt | hge
    · rw [hkeep hlt]; exact hlast
    · rw [(hfix (by omega)).2]; exact hlast

theorem fixed_string_base_null.inv_run (N : Nat) (CharT : IntKind) (hN : 0 < N)
    (hmax : (N : Int) ≤ CharT.max) (hsz : N < 2 ^ 64) (cs : List Call) :
    ∀ st : fixed_string_base_null, (∀ c ∈ cs, Call.Valid N c) →
      fixed_string_base_null.Inv N st →
      fixed_string_base_null.Inv N (fixed_string_base_null.run N CharT cs st) := by
  induction cs with
  | nil => intro st _ h; exact h
  | cons c cs ih =>
    intro st hv hinv
    have hc := hv c (List.mem_cons_self c cs)
    have hrest : ∀ d ∈ cs, Call.Valid N d := fun d hd => hv d (List.mem_cons_of_mem c hd)
    cases c with
    | set_size n =>
      exact ih _ hrest (fixed_string_base_null.inv_set_size N CharT st n hN hmax hsz hinv.1 hc).2
    | term_impl =>
      exact ih _ hrest (fixed_string_base_null.inv_term_impl N st hsz hinv).2.1

theorem fixed_string_base_null.inv_ctor_n (N : Nat) (CharT : IntKind) (hN : 0 < N)
    (hmax : (N : Int) ≤ CharT.max) (hsz : N < 2 ^ 64) (allow_uninit_mem : Bool)
    (raw : List Int) (hraw : allow_uninit_mem = true → raw.length = N + 1) (n : Nat)
    (hn : n ≤ N) :
    fixed_string_base_null.Inv N
      (fixed_string_base_null.ctor_n allow_uninit_mem N CharT raw n) :=
  (fixed_string_base_null.inv_set_size N CharT _ n hN hmax hsz
    (data_init_length allow_uninit_mem N raw hraw) hn).2

/-- C13, the claim at a concrete input. `set_size` writes no terminator: on a Sized
storage of capacity 3 holding `"abc"`, `set_size(1)` leaves `data_[size_impl()]` equal to
`'b'`; on an Encoded storage of capacity 3 holding `"abc"` likewise. So the invariant
`buffer[size()] == 0` does not hold after every `set_size(n)` with `n <= N`. -/
theorem set_size_writes_no_terminator :
    (fixed_string_base_zero.set_size 3 ⟨3, [97, 98, 99, 0]⟩ 1).1.size_impl = 1 ∧
    (fixed_string_base_zero.set_size 3 ⟨3, [97, 98, 99, 0]⟩ 1).1.data_[1]? = some 98 ∧
    fixed_string_base_null.Inv 3 ⟨[97, 98, 99, 0]⟩ ∧
    (fixed_string_base_null.set_size 3 ⟨8, true⟩ ⟨[97, 98, 99, 0]⟩ 1).1.size_impl 3 = 1 ∧
    (fixed_string_base_null.set_size 3 ⟨8, true⟩ ⟨[97, 98, 99, 0]⟩ 1).1.data_[1]? = some 98 ∧
    ¬ (∀ (N : Nat) (st : fixed_string_base_zero) (n : Nat),
        0 < N → st.data_.length = N + 1 → n ≤ N →
        (st.set_size N n).1.data_[(st.set_size N n).1.size_impl]? = some 0) ∧
    ¬ (∀ (N : Nat) (CharT : IntKind) (st : fixed_string_base_null) (n : Nat),
        0 < N → (N : Int) ≤ CharT.max → st.data_.length = N + 1 → n ≤ N →
        (st.set_size N CharT n).1.data_[(st.set_size N CharT n).1.size_impl N]? = some 0) := by
  refine ⟨by decide, by decide, by decide, by decide, by decide, ?_, ?_⟩
  · intro h
    exact absurd (h 3 ⟨3, [97, 98, 99, 0]⟩ 1 (by decide) (by decide) (by decide)) (by decide)
  · intro h
    exact absurd
      (h 3 ⟨8, true⟩ ⟨[97, 98, 99, 0]⟩ 1 (by decide) (by decide) (by decide) (by decide))
      (by decide)

/-- C13 as amended. For the Sized and the Encoded variant, `buffer[size()] == 0` holds
after `term_impl()` from every state with `size() <= N`, hence after `set_size(n)`
followed by `term_impl()` for every `n <= N`. `set_size(n)` itself writes only the size
field (Sized) or slot `N` (Encoded) and leaves the other elements as they were. -/
theorem terminator_after_term_impl (N : Nat) (CharT : IntKind) (hsz : N < 2 ^ 64)
    (zs : fixed_string_base_zero) (hzlen : zs.data_.length = N + 1)
    (ns : fixed_string_base_null) (hnlen : ns.data_.length = N + 1) (n : Nat) (hn : n ≤ N) :
    (zs.size_impl ≤ N → zs.term_impl.data_[zs.term_impl.size_impl]? = some 0) ∧
    (fixed_string_base_null.Inv N ns →
      (ns.term_impl N).data_[(ns.term_impl N).size_impl N]? = some 0) ∧
    (zs.set_size N n).1.term_impl.data_[(zs.set_size N n).1.term_impl.size_impl]? = some 0 ∧
    (0 < N → (N : Int) ≤ CharT.max →
      ((ns.set_size N CharT n).1.term_impl N).data_[
        ((ns.set_size N CharT n).1.term_impl N).size_impl N]? = some 0) ∧
    (zs.set_size N n).1.data_ = zs.data_ ∧
    (∀ i, i ≠ N → (ns.set_size N CharT n).1.data_[i]? = ns.data_[i]?) := by
  have hterm : ∀ st : fixed_string_base_null, fixed_string_base_null.Inv N st →
      (st.term_impl N).data_[(st.term_impl N).size_impl N]? = some 0 := by
    intro st hinv
    obtain ⟨h1, -, h3, -, -⟩ := fixed_string_base_null.inv_term_impl N st hsz hinv
    rw [h1]; exact h3
  have hmod : n % 2 ^ (smallest_width N).bits = n := by
    have hw := smallest_width_holds N hsz
    have hpos : 0 < 2 ^ (smallest_width N).bits := by positivity
    apply Nat.mod_eq_of_lt
    unfold CType.numeric_limits_max at hw
    omega
  refine ⟨?_, hterm ns, ?_, ?_, rfl, ?_⟩
  · intro hle
    unfold fixed_string_base_zero.size_impl at hle
    simp only [fixed_string_base_zero.term_impl, fixed_string_base_zero.size_impl]
    exact List.getElem?_set_self (by omega)
  · simp only [fixed_string_base_zero.set_size, fixed_string_base_zero.term_impl,
      fixed_string_base_zero.size_impl, hmod]
    exact List.getElem?_set_self (by omega)
  · intro hN hmax
    exact hterm _ (fixed_string_base_null.inv_set_size N CharT ns n hN hmax hsz hnlen hn).2
  · intro i hi
    simp only [fixed_string_base_null.set_size]
    exact List.getElem?_set_ne (Ne.symm hi)

/-- C13 as amended, at a concrete input: the two storages of the counterexample, with
`set_size(1)` followed by `term_impl()`. -/
theorem terminator_after_term_impl_witness :
    (fixed_string_base_zero.set_size 3 ⟨3, [97, 98, 99, 0]⟩ 1).1.term_impl.data_[
      (fixed_string_base_zero.set_size 3 ⟨3, [97, 98, 99, 0]⟩ 1).1.term_impl.size_impl]?
      = some 0 ∧
    ((fixed_string_base_null.set_size 3 ⟨8, true⟩ ⟨[97, 98, 99, 0]⟩ 1).1.term_impl 3).data_[
      ((fixed_string_base_null.set_size 3 ⟨8, true⟩ ⟨[97, 98, 99, 0]⟩ 1).1.term_impl
        3).size_impl 3]? = some 0 :=
  have h := terminator_after_term_impl 3 ⟨8, true⟩ (by decide) ⟨3, [97, 98, 99, 0]⟩
    (by decide) ⟨[97, 98, 99, 0]⟩ (by decide) 1 (by decide)
  ⟨h.2.2.1, h.2.2.2.1 (by decide) (by decide)⟩

/-- C14. For every `n <= N`, `set_size(n)` of the Sized variant returns the logical size
`n`, and `set_size(n)` of the Encoded variant (`0 < N <= max of CharT`) returns the stored
remainder `N - n`, which equals `n` only when `2 n == N`. -/
theorem set_size_return_value (N : Nat) (CharT : IntKind) (hsz : N < 2 ^ 64)
    (zs : fixed_string_base_zero) (ns : fixed_string_base_null) (n : Nat) (hn : n ≤ N) :
    (zs.set_size N n).2 = n ∧
    (0 < N → (N : Int) ≤ CharT.max →
      (ns.set_size N CharT n).2 = N - n ∧
      ((ns.set_size N CharT n).2 = n ↔ 2 * n = N)) := by
  constructor
  · have hw := smallest_width_holds N hsz
    have hpos : 0 < 2 ^ (smallest_width N).bits := by positivity
    simp only [fixed_string_base_zero.set_size]
    apply Nat.mod_eq_of_lt
    unfold CType.numeric_limits_max at hw
    omega
  · intro hN hmax
    rw [fixed_string_base_null.set_size_eq N CharT ns n hN hmax hsz hn]
    simp only
    exact ⟨trivial, by omega⟩

/-- C14 at a concrete input: capacity 5, `set_size(2)`: the Sized variant returns 2, the
Encoded variant (`char`) returns 3. -/
theorem set_size_return_value_witness :
    (fixed_string_base_zero.set_size 5 ⟨0, [0, 0, 0, 0, 0, 0]⟩ 2).2 = 2 ∧
    (fixed_string_base_null.set_size 5 ⟨8, true⟩ ⟨[0, 0, 0, 0, 0, 5]⟩ 2).2 = 5 - 2 :=
  have h := set_size_return_value 5 ⟨8, true⟩ (by decide) ⟨0, [0, 0, 0, 0, 0, 0]⟩
    ⟨[0, 0, 0, 0, 0, 5]⟩ 2 (by decide)
  ⟨h.1, (h.2 (by decide) (by decide)).1⟩

/-- C15. Encoded variant, `0 < N <= max of CharT`: in every state reached from a
constructor (default, or with `n <= N`; zero-initialised or not) by calls `set_size(n)`
with `n <= N` and `term_impl()`, slot `N` holds `N - size_impl()` and `size_impl() <= N`.
There `term_impl()` leaves `size_impl()` unchanged: for `size_impl() < N` it leaves slot
`N` as it is, and for `size_impl() == N` slot `N` already holds 0 and nothing changes. -/
theorem encoded_invariant_reachable (N : Nat) (CharT : IntKind) (hN : 0 < N)
    (hmax : (N : Int) ≤ CharT.max) (hsz : N < 2 ^ 64) (allow_uninit_mem : Bool)
    (raw : List Int) (hraw : allow_uninit_mem = true → raw.length = N + 1)
    (st0 : fixed_string_base_null)
    (hst0 : st0 = fixed_string_base_null.ctor allow_uninit_mem N CharT raw ∨
      ∃ n, n ≤ N ∧ st0 = fixed_string_base_null.ctor_n allow_uninit_mem N CharT raw n)
    (cs : List Call) (hcs : ∀ c ∈ cs, Call.Valid N c) :
    (fixed_string_base_null.run N CharT cs st0).size_impl N ≤ N ∧
    (fixed_string_base_null.run N CharT cs st0).data_[N]?
      = some ((N : Int) - ((fixed_string_base_null.run N CharT cs st0).size_impl N : Int)) ∧
    ((fixed_string_base_null.run N CharT cs st0).term_impl N).size_impl N
      = (fixed_string_base_null.run N CharT cs st0).size_impl N ∧
    ((fixed_string_base_null.run N CharT cs st0).size_impl N < N →
      ((fixed_string_base_null.run N CharT cs st0).term_impl N).data_[N]?
        = (fixed_string_base_null.run N CharT cs st0).data_[N]?) ∧
    ((fixed_string_base_null.run N CharT cs st0).size_impl N = N →
      (fixed_string_base_null.run N CharT cs st0).data_[N]? = some 0 ∧
      (fixed_string_base_null.run N CharT cs st0).term_impl N
        = fixed_string_base_null.run N CharT cs st0) := by
  have h0 : fixed_string_base_null.Inv N st0 := by
    rcases hst0 with rfl | ⟨n, hn, rfl⟩
    · exact fixed_string_base_null.inv_ctor_n N CharT hN hmax hsz allow_uninit_mem raw hraw 0
        (Nat.zero_le N)
    · exact fixed_string_base_null.inv_ctor_n N CharT hN hmax hsz allow_uninit_mem raw hraw n hn
  have hinv := fixed_string_base_null.inv_run N CharT hN hmax hsz cs st0 hcs h0
  obtain ⟨t1, -, -, t4, t5⟩ := fixed_string_base_null.inv_term_impl N _ hsz hinv
  exact ⟨hinv.2.1, hinv.2.2, t1, t4, t5⟩

/-- C15 at a concrete input: capacity 3, `char`, default constructor, then
`set_size(3)`, `term_impl()`, `set_size(1)`, `term_impl()`. -/
theorem encoded_invariant_reachable_witness :
    (fixed_string_base_null.run 3 ⟨8, true⟩
      [.set_size 3, .term_impl, .set_size 1, .term_impl]
      (fixed_string_base_null.ctor false 3 ⟨8, true⟩ [])).size_impl 3 ≤ 3 :=
  (encoded_invariant_reachable 3 ⟨8, true⟩ (by decide) (by decide) (by decide) false []
    (by decide) (fixed_string_base_null.ctor false 3 ⟨8, true⟩ []) (Or.inl rfl)
    [.set_size 3, .term_impl, .set_size 1, .term_impl] (by decide)).1

/-- C20. In the zero-initialising mode a default-constructed Sized storage and a
default-constructed Encoded storage (`0 < N <= max of CharT`) have `size_impl() == 0` and
`data_[0] == 0`; the Encoded constructor has stored `N` in slot `N`, which is not slot 0.
An Encoded storage constructed with `n <= N` has `size_impl() == n` and `data_[n] == 0`. -/
theorem default_state (N : Nat) (CharT : IntKind) (raw : List Int) (hN : 0 < N)
    (hmax : (N : Int) ≤ CharT.max) (hsz : N < 2 ^ 64) (n : Nat) (hn : n ≤ N) :
    (fixed_string_base_zero.ctor false N raw).size_impl = 0 ∧
    (fixed_string_base_zero.ctor false N raw).data_[0]? = some 0 ∧
    (fixed_string_base_null.ctor false N CharT raw).size_impl N = 0 ∧
    (fixed_string_base_null.ctor false N CharT raw).data_[0]? = some 0 ∧
    (fixed_string_base_null.ctor false N CharT raw).data_[N]? = some (N : Int) ∧
    (fixed_string_base_null.ctor_n false N CharT raw n).size_impl N = n ∧
    (fixed_string_base_null.ctor_n false N CharT raw n).data_[n]? = some 0 := by
  have hlen : (data_init false N raw).length = N + 1 :=
    data_init_length false N raw (fun h => absurd h (by decide))
  have hget : ∀ i, i ≤ N → (data_init false N raw)[i]? = some 0 := by
    intro i hi
    simp only [data_init, Bool.false_eq_true, if_false]
    exact List.getElem?_replicate_of_lt (by omega)
  have hctor : ∀ m, m ≤ N → fixed_string_base_null.ctor_n false N CharT raw m
      = ⟨(data_init false N raw).set N ((N : Int) - (m : Int))⟩ := by
    intro m hm
    unfold fixed_string_base_null.ctor_n
    rw [fixed_string_base_null.set_size_eq N CharT _ m hN hmax hsz hm]
  have hsize : ∀ m, m ≤ N →
      (fixed_string_base_null.ctor_n false N CharT raw m).size_impl N = m := fun m hm =>
    (fixed_string_base_null.inv_set_size N CharT _ m hN hmax hsz hlen hm).1
  have hdef : fixed_string_base_null.ctor false N CharT raw
      = fixed_string_base_null.ctor_n false N CharT raw 0 := rfl
  refine ⟨rfl, ?_, ?_, ?_, ?_, hsize n hn, ?_⟩
  · exact hget 0 (Nat.zero_le N)
  · rw [hdef]; exact hsize 0 (Nat.zero_le N)
  · rw [hdef, hctor 0 (Nat.zero_le N)]
    simp only
    rw [List.getElem?_set_ne (by omega)]
    exact hget 0 (Nat.zero_le N)
  · rw [hdef, hctor 0 (Nat.zero_le N)]
    simp only
    rw [List.getElem?_set_self (by omega)]
    simp
  · rw [hctor n hn]
    simp only
    rcases Nat.lt_or_ge n N with hlt | hge
    · rw [List.getElem?_set_ne (by omega)]
      exact hget n hn
    · have hnN : n = N := by omega
      subst hnN
      rw [List.getElem?_set_self (by omega)]
      simp

/-- C20 at a concrete input: capacity 3, `char`; the default constructors and the
Encoded constructor with `n = 3`. -/
theorem default_state_witness :
    (fixed_string_base_zero.ctor false 3 []).size_impl = 0 ∧
    (fixed_string_base_null.ctor false 3 ⟨8, true⟩ []).size_impl 3 = 0 ∧
    (fixed_string_base_null.ctor false 3 ⟨8, true⟩ []).data_[0]? = some 0 ∧
    (fixed_string_base_null.ctor_n false 3 ⟨8, true⟩ [] 3).data_[3]? = some 0 :=
  have h := default_state 3 ⟨8, true⟩ [] (by decide) (by decide) (by decide) 3 (by decide)
  ⟨h.1, h.2.2.1, h.2.2.2.1, h.2.2.2.2.2.2⟩

/-! ## Order properties of `lexicographical_compare` -/

section CompareOrder

variable {C : Type}

/-- The negative results of `lexicographical_compare` are the lexicographic order. -/
theorem lexicographical_compare_neg_iff [LT C] (T : Traits C) (hT : T.LawfulCompare)
    (s1 s2 : List C) (n1 n2 : Nat) (h1 : n1 ≤ s1.length) (h2 : n2 ≤ s2.length) :
    lexicographical_compare T s1 n1 s2 n2 < 0 ↔ LexLess (s1.take n1) (s2.take n2) := by
  have hl1 : (s1.take n1).length = n1 := by simp [h1]
  have hl2 : (s2.take n2).length = n2 := by simp [h2]
  rcases Nat.lt_trichotomy n1 n2 with hlt | heq | hgt
  · have hlen : (s1.take n1).length < (s2.take n2).length := by omega
    have htake : (s2.take n2).take (s1.take n1).length = s2.take n1 := by
      rw [hl1, List.take_take, Nat.min_eq_left (Nat.le_of_lt hlt)]
    rw [lexicographical_compare_lt s1 s2 hlt, lexLess_shorter_iff hlen, htake,
      ← hT.neg_iff s1 s2 n1 h1 (by omega), ← hT.zero_iff s1 s2 n1 h1 (by omega)]
    split_ifs with hc <;> constructor <;> intro h <;> omega
  · subst heq
    rw [lexicographical_compare_eq]
    exact hT.neg_iff s1 s2 n1 h1 h2
  · have hlen : (s2.take n2).length < (s1.take n1).length := by omega
    have htake : (s1.take n1).take (s2.take n2).length = s1.take n2 := by
      rw [hl2, List.take_take, Nat.min_eq_left (Nat.le_of_lt hgt)]
    rw [lexicographical_compare_gt s1 s2 hgt, lexLess_longer_iff hlen, htake,
      ← hT.neg_iff s1 s2 n2 (by omega) h2]
    split_ifs with hc <;> constructor <;> intro h <;> omega

theorem lexLess_irrefl [LinearOrder C] (a : List C) : ¬ LexLess a a := by
  induction a with
  | nil => exact not_lexLess_nil []
  | cons x a ih =>
    rw [lexLess_cons_cons]
    rintro (h | ⟨-, h⟩)
    · exact lt_irrefl x h
    · exact ih h

theorem lexLess_trans [LinearOrder C] (a : List C) :
    ∀ b c : List C, LexLess a b → LexLess b c → LexLess a c := by
  induction a with
  | nil =>
    intro b c _ hbc
    cases c with
    | nil => exact absurd hbc (not_lexLess_nil b)
    | cons z c => exact Or.inr ⟨z, c, rfl⟩
  | cons x a ih =>
    intro b c hab hbc
    cases b with
    | nil => exact absurd hab (not_lexLess_nil _)
    | cons y b =>
      cases c with
      | nil => exact absurd hbc (not_lexLess_nil _)
      | cons z c =>
        rw [lexLess_cons_cons] at hab hbc ⊢
        rcases hab with hxy | ⟨rfl, hab⟩
        · rcases hbc with hyz | ⟨rfl, -⟩
          · exact Or.inl (lt_trans hxy hyz)
          · exact Or.inl hxy
        · rcases hbc with hyz | ⟨rfl, hbc⟩
          · exact Or.inl hyz
          · exact Or.inr ⟨rfl, ih b c hab hbc⟩

theorem lexLess_total [LinearOrder C] (a : List C) :
    ∀ b : List C, a ≠ b → LexLess a b ∨ LexLess b a := by
  induction a with
  | nil =>
    intro b hne
    cases b with
    | nil => exact absurd rfl hne
    | cons y b => exact Or.inl (Or.inr ⟨y, b, rfl⟩)
  | cons x a ih =>
    intro b hne
    cases b with
    | nil => exact Or.inr (Or.inr ⟨x, a, rfl⟩)
    | cons y b =>
      rw [lexLess_cons_cons, lexLess_cons_cons]
      rcases lt_trichotomy x y with hlt | rfl | hgt
      · exact Or.inl (Or.inl hlt)
      · have hne2 : a ≠ b := fun h => hne (by rw [h])
        rcases ih b hne2 with h | h
        · exact Or.inl (Or.inr ⟨rfl, h⟩)
        · exact Or.inr (Or.inr ⟨rfl, h⟩)
      · exact Or.inr (Or.inl hgt)

/-- C16. For lawful `Traits` over linearly ordered characters, the relation
`lexicographical_compare(a, b) < 0` is a strict total order on sequences: it never holds
between equal sequences, it is transitive for sequences of any three lengths, and for two
distinct sequences exactly one of `compare(a, b) < 0` and `compare(b, a) < 0` holds. -/
theorem lexicographical_compare_strict_total_order [LinearOrder C] (T : Traits C)
    (hT : T.LawfulCompare) (s1 s2 s3 : List C) (n1 n2 n3 : Nat)
    (h1 : n1 ≤ s1.length) (h2 : n2 ≤ s2.length) (h3 : n3 ≤ s3.length) :
    ¬ lexicographical_compare T s1 n1 s1 n1 < 0 ∧
    (s1.take n1 = s2.take n2 → ¬ lexicographical_compare T s1 n1 s2 n2 < 0) ∧
    (lexicographical_compare T s1 n1 s2 n2 < 0 → lexicographical_compare T s2 n2 s3 n3 < 0 →
      lexicographical_compare T s1 n1 s3 n3 < 0) ∧
    (s1.take n1 ≠ s2.take n2 →
      (lexicographical_compare T s1 n1 s2 n2 < 0 ∨ lexicographical_compare T s2 n2 s1 n1 < 0) ∧
      ¬ (lexicographical_compare T s1 n1 s2 n2 < 0 ∧
        lexicographical_compare T s2 n2 s1 n1 < 0)) := by
  have e11 := lexicographical_compare_neg_iff T hT s1 s1 n1 n1 h1 h1
  have e12 := lexicographical_compare_neg_iff T hT s1 s2 n1 n2 h1 h2
  have e21 := lexicographical_compare_neg_iff T hT s2 s1 n2 n1 h2 h1
  have e23 := lexicographical_compare_neg_iff T hT s2 s3 n2 n3 h2 h3
  have e13 := lexicographical_compare_neg_iff T hT s1 s3 n1 n3 h1 h3
  rw [e11, e12, e21, e23, e13]
  refine ⟨lexLess_irrefl _, ?_, lexLess_trans _ _ _, ?_⟩
  · intro heq
    rw [heq]
    exact lexLess_irrefl _
  · intro hne
    refine ⟨lexLess_total _ _ hne, ?_⟩
    rintro ⟨hab, hba⟩
    exact lexLess_irrefl _ (lexLess_trans _ _ _ hab hba)

/-- C16 at a concrete input, with `std::char_traits<char>`: `"ab"`, `"abc"`, `"abd"`. -/
theorem lexicographical_compare_strict_total_order_witness :
    ¬ lexicographical_compare (char_traits Char) "ab".toList 2 "ab".toList 2 < 0 ∧
    (lexicographical_compare (char_traits Char) "ab".toList 2 "abc".toList 3 < 0 →
      lexicographical_compare (char_traits Char) "abc".toList 3 "abd".toList 3 < 0 →
      lexicographical_compare (char_traits Char) "ab".toList 2 "abd".toList 3 < 0) :=
  have h := lexicographical_compare_strict_total_order (char_traits Char)
    char_traits.lawfulCompare "ab".toList "abc".toList "abd".toList 2 3 3
    (by decide) (by decide) (by decide)
  ⟨h.1, h.2.2.1⟩

theorem int_sign_cases (x : Int) :
    (x < 0 ∧ x.sign = -1) ∨ (x = 0 ∧ x.sign = 0) ∨ (0 < x ∧ x.sign = 1) := by
  rcases lt_trichotomy x 0 with h | h | h
  · exact Or.inl ⟨h, Int.sign_eq_neg_one_of_neg h⟩
  · exact Or.inr (Or.inl ⟨h, by rw [h]; rfl⟩)
  · exact Or.inr (Or.inr ⟨h, Int.sign_eq_one_of_pos h⟩)

/-- A lawful `Traits::compare` is sign-antisymmetric. -/
theorem Traits.LawfulCompare.sign_antisymm [LT C] {T : Traits C} (hT : T.LawfulCompare)
    (s1 s2 : List C) (n : Nat) (h1 : n ≤ s1.length) (h2 : n ≤ s2.length) :
    (T.compare s1 s2 n).sign = -(T.compare s2 s1 n).sign := by
  have a1 := hT.neg_iff s1 s2 n h1 h2
  have a2 := hT.pos_iff s1 s2 n h1 h2
  have b1 := hT.neg_iff s2 s1 n h2 h1
  have b2 := hT.pos_iff s2 s1 n h2 h1
  have hn : T.compare s1 s2 n < 0 ↔ 0 < T.compare s2 s1 n := a1.trans b2.symm
  have hp : 0 < T.compare s1 s2 n ↔ T.compare s2 s1 n < 0 := a2.trans b1.symm
  rcases int_sign_cases (T.compare s1 s2 n) with ⟨c, e⟩ | ⟨c, e⟩ | ⟨c, e⟩ <;>
    rcases int_sign_cases (T.compare s2 s1 n) with ⟨d, f⟩ | ⟨d, f⟩ | ⟨d, f⟩ <;>
    rw [e, f] <;> first | rfl | (exfalso; omega)

/-- C17. If `Traits::compare` is sign-antisymmetric, the sign of
`lexicographical_compare(a, b)` is the negation of the sign of
`lexicographical_compare(b, a)`; when the lengths differ the two results are exactly
opposite, one `-1` and the other `+1`. -/
theorem lexicographical_compare_antisymm (T : Traits C)
    (hanti : ∀ (s1 s2 : List C) (n : Nat), n ≤ s1.length → n ≤ s2.length →
      (T.compare s1 s2 n).sign = -(T.compare s2 s1 n).sign)
    (s1 s2 : List C) (n1 n2 : Nat) (h1 : n1 ≤ s1.length) (h2 : n2 ≤ s2.length) :
    (lexicographical_compare T s1 n1 s2 n2).sign
      = -(lexicographical_compare T s2 n2 s1 n1).sign ∧
    (n1 ≠ n2 →
      lexicographical_compare T s1 n1 s2 n2 = -lexicographical_compare T s2 n2 s1 n1 ∧
      ((lexicographical_compare T s1 n1 s2 n2 = -1 ∧
          lexicographical_compare T s2 n2 s1 n1 = 1) ∨
        (lexicographical_compare T s1 n1 s2 n2 = 1 ∧
          lexicographical_compare T s2 n2 s1 n1 = -1))) := by
  have hdiff : ∀ (t1 t2 : List C) (m1 m2 : Nat), m1 ≤ t1.length → m2 ≤ t2.length → m1 < m2 →
      (lexicographical_compare T t1 m1 t2 m2 = -1 ∧
        lexicographical_compare T t2 m2 t1 m1 = 1) ∨
      (lexicographical_compare T t1 m1 t2 m2 = 1 ∧
        lexicographical_compare T t2 m2 t1 m1 = -1) := by
    intro t1 t2 m1 m2 k1 k2 hlt
    have ha := hanti t1 t2 m1 k1 (by omega)
    rw [lexicographical_compare_lt t1 t2 hlt, lexicographical_compare_gt t2 t1 hlt]
    rcases int_sign_cases (T.compare t1 t2 m1) with ⟨c, e⟩ | ⟨c, e⟩ | ⟨c, e⟩ <;>
      rcases int_sign_cases (T.compare t2 t1 m1) with ⟨d, f⟩ | ⟨d, f⟩ | ⟨d, f⟩ <;>
      rw [e, f] at ha <;> first
        | (exfalso; omega)
        | (left; rw [if_pos (by omega), if_pos (by omega)]; exact ⟨rfl, rfl⟩)
        | (right; rw [if_neg (by omega), if_neg (by omega)]; exact ⟨rfl, rfl⟩)
  rcases Nat.lt_trichotomy n1 n2 with hlt | heq | hgt
  · rcases hdiff s1 s2 n1 n2 h1 h2 hlt with ⟨e, f⟩ | ⟨e, f⟩ <;> rw [e, f] <;>
      exact ⟨by decide, fun _ => ⟨by decide, by decide⟩⟩
  · subst heq
    rw [lexicographical_compare_eq, lexicographical_compare_eq]
    exact ⟨hanti s1 s2 n1 h1 h2, fun h => absurd rfl h⟩
  · rcases hdiff s2 s1 n2 n1 h2 h1 hgt with ⟨e, f⟩ | ⟨e, f⟩ <;> rw [e, f] <;>
      exact ⟨by decide, fun _ => ⟨by decide, by decide⟩⟩

/-- C17 at a concrete input, with `std::char_traits<char>`: `"ab"` against `"abc"`. -/
theorem lexicographical_compare_antisymm_witness :
    lexicographical_compare (char_traits Char) "ab".toList 2 "abc".toList 3
      = -lexicographical_compare (char_traits Char) "abc".toList 3 "ab".toList 2 :=
  ((lexicographical_compare_antisymm (char_traits Char)
    (fun s1 s2 n h1 h2 => char_traits.lawfulCompare.sign_antisymm s1 s2 n h1 h2)
    "ab".toList "abc".toList 2 3 (by decide) (by decide)).2 (by decide)).1

end CompareOrder

/-! ## The selection with the null optimization disabled, and the size of `max_digits` -/

/-- C18, the claim at a concrete input. With `BOOST_FIXED_STRING_NO_NULL_OPTIMIZATION`
defined and `N == 0`, `optimization_base` names `fixed_string_base_zero<0, CharT, Traits>`,
the specialisation without members, not the Sized primary template. -/
theorem optimization_base_disabled_zero :
    optimization_base true 0 ⟨8, true⟩ = .fixed_string_base_zero_0 ∧
    optimization_base true 0 ⟨8, true⟩ ≠ .fixed_string_base_zero_primary ∧
    ¬ (∀ (N : Nat) (CharT : IntKind),
        optimization_base true N CharT = .fixed_string_base_zero_primary) := by
  refine ⟨by decide, by decide, ?_⟩
  intro h
  exact absurd (h 0 ⟨8, true⟩) (by decide)

/-- C18 as amended. With `BOOST_FIXED_STRING_NO_NULL_OPTIMIZATION` defined,
`optimization_base` names `fixed_string_base_zero<N, CharT, Traits>` for every `N` and
every character type and never `fixed_string_base_null`: that is the Sized primary
template exactly for `N > 0` and the empty specialisation exactly for `N == 0`. -/
theorem optimization_base_disabled (N : Nat) (CharT : IntKind) :
    optimization_base true N CharT = fixed_string_base_zero_class N ∧
    optimization_base true N CharT ≠ .fixed_string_base_null ∧
    (optimization_base true N CharT = .fixed_string_base_zero_primary ↔ 0 < N) ∧
    (optimization_base true N CharT = .fixed_string_base_zero_0 ↔ N = 0) := by
  have key : optimization_base true N CharT = fixed_string_base_zero_class N := by
    simp [optimization_base]
  rw [key]
  unfold fixed_string_base_zero_class
  by_cases h0 : N = 0
  · simp [h0]
  · have : 0 < N := Nat.pos_of_ne_zero h0
    simp [h0, this]

theorem decimal_digits_of_max :
    (Nat.digits 10 (2 ^ (8 * 1) - 1)).length = 3 ∧
    (Nat.digits 10 (2 ^ (8 * 2) - 1)).length = 5 ∧
    (Nat.digits 10 (2 ^ (8 * 4) - 1)).length = 10 ∧
    (Nat.digits 10 (2 ^ (8 * 8) - 1)).length = 20 := by
  have l1 : Nat.log 10 (2 ^ (8 * 1) - 1) = 2 :=
    Nat.log_eq_of_pow_le_of_lt_pow (by norm_num) (by norm_num)
  have l2 : Nat.log 10 (2 ^ (8 * 2) - 1) = 4 :=
    Nat.log_eq_of_pow_le_of_lt_pow (by norm_num) (by norm_num)
  have l4 : Nat.log 10 (2 ^ (8 * 4) - 1) = 9 :=
    Nat.log_eq_of_pow_le_of_lt_pow (by norm_num) (by norm_num)
  have l8 : Nat.log 10 (2 ^ (8 * 8) - 1) = 19 :=
    Nat.log_eq_of_pow_le_of_lt_pow (by norm_num) (by norm_num)
  refine ⟨?_, ?_, ?_, ?_⟩
  · rw [Nat.digits_len 10 _ (by decide) (by decide), l1]
  · rw [Nat.digits_len 10 _ (by decide) (by decide), l2]
  · rw [Nat.digits_len 10 _ (by decide) (by decide), l4]
  · rw [Nat.digits_len 10 _ (by decide) (by decide), l8]

/-- C19, the claim at a concrete input. For one byte, `max_digits(1) = 4` while the
largest value `255` has 3 decimal digits: `4 >= 3 + 1 + 1` fails; likewise for 2, 4 and 8
bytes. There is room for the digits and the sign, not for a further digit. -/
theorem max_digits_has_no_spare_digit :
    max_digits 1 = 4 ∧ (Nat.digits 10 (2 ^ (8 * 1) - 1)).length = 3 ∧
    ¬ (max_digits 1 ≥ (Nat.digits 10 (2 ^ (8 * 1) - 1)).length + 1 + 1) ∧
    ¬ (max_digits 2 ≥ (Nat.digits 10 (2 ^ (8 * 2) - 1)).length + 1 + 1) ∧
    ¬ (max_digits 4 ≥ (Nat.digits 10 (2 ^ (8 * 4) - 1)).length + 1 + 1) ∧
    ¬ (max_digits 8 ≥ (Nat.digits 10 (2 ^ (8 * 8) - 1)).length + 1 + 1) := by
  obtain ⟨m1, m2, m4, m8⟩ := max_digits_values
  obtain ⟨d1, d2, d4, d8⟩ := decimal_digits_of_max
  rw [m1, m2, m4, m8, d1, d2, d4, d8]
  decide

/-- C19 as amended. For every byte width `b` in `{1, 2, 4, 8}`,
`max_digits(b) = floor(b * 2.41) + 2` is the number of decimal digits of `2^(8b) - 1` plus
one: it covers the digits of the largest magnitude and the sign, and nothing more. -/
theorem max_digits_covers_digits_and_sign (b : Nat)
    (hb : b = 1 ∨ b = 2 ∨ b = 4 ∨ b = 8) :
    max_digits b = b * 241 / 100 + 2 ∧
    max_digits b = (Nat.digits 10 (2 ^ (8 * b) - 1)).length + 1 ∧
    max_digits b ≥ (Nat.digits 10 (2 ^ (8 * b) - 1)).length + 1 := by
  obtain ⟨m1, m2, m4, m8⟩ := max_digits_values
  obtain ⟨d1, d2, d4, d8⟩ := decimal_digits_of_max
  rcases hb with rfl | rfl | rfl | rfl
  · rw [m1, d1]; decide
  · rw [m2, d2]; decide
  · rw [m4, d4]; decide
  · rw [m8, d8]; decide

/-- C19 as amended, at a concrete input: 8 bytes. -/
theorem max_digits_covers_digits_and_sign_witness :
    max_digits 8 = (Nat.digits 10 (2 ^ (8 * 8) - 1)).length + 1 :=
  (max_digits_covers_digits_and_sign 8 (Or.inr (Or.inr (Or.inr rfl)))).2.1

end FixedString
